import Mathlib

/-!
Verification of the littlecheck directive compiler and stream matcher
(src/littlecheck/littlecheck.py) against its specification.

The development shallowly embeds the Python source:

* strings are `String`/`List Char`, Python's `str.isspace` set is modelled
  by the ASCII whitespace characters `isPySpace` covers;
* the Python `re` module, a library dependency of the source, is modelled
  by a small regular-expression AST `RE` with a Brzozowski-derivative
  matcher, and a parser `reParse` for the subset of `re` syntax that
  littlecheck's compiled patterns use (literals and their escapes, the
  classes \s \d \w and [...], the operators | * + ?, the groups (...),
  (?:...) and (?P<name>...) with duplicate-name detection, and the
  lazy-quantifier marker).  Constructs outside that subset (lookarounds,
  backreferences, anchors in user text, possessive quantifiers) make the
  model's parser fail; no claim below exercises them;
* `re.match` of a pattern of the form `^body$` is modelled by
  `pyMatchAnchored`: the body must consume the whole string, or the whole
  string up to a final newline (Python's `$` also asserts before a
  trailing newline);
* functions of the source keep their names where Lean allows it
  (`perform_substitution` becomes `performSubstitution`, `TestRun.check`
  becomes `streamCheck`, and so on).
-/

namespace Littlecheck

/-- The characters Python's `str.isspace` and the regex class `\s` accept,
restricted to ASCII (the model's whitespace set). -/
def isPySpace (c : Char) : Bool :=
  c = ' ' || c = '\t' || c = '\n' || c = '\r' || c = '\x0b' || c = '\x0c'

/-- Model of the source's `Line`: a line of text remembering where it came
from (`Line.__init__`). -/
structure CLine where
  text : String
  number : Nat
  file : String
deriving DecidableEq, Repr

/-- Model of `Line.is_empty_space`: `not self.text or self.text.isspace()`,
i.e. every character of the text is whitespace (vacuously for ""). -/
def CLine.isEmptySpace (l : CLine) : Bool :=
  l.text.data.all isPySpace

/-- One item of a regex character class `[...]`: a single character or a
range. -/
inductive ClsItem where
  | one (c : Char)
  | rng (lo hi : Char)
deriving DecidableEq, Repr

/-- Does a class item accept the character? -/
def clsItemMatch (c : Char) : ClsItem → Bool
  | .one d => c = d
  | .rng lo hi => decide (lo ≤ c) && decide (c ≤ hi)

/-- Does the class `[items]` (or `[^items]` when `neg`) accept the
character? -/
def clsMatch (neg : Bool) (items : List ClsItem) (c : Char) : Bool :=
  xor neg (items.any (clsItemMatch c))

/-- Regular-expression AST modelling the fragment of Python `re` that
littlecheck's compiled patterns use.  Groups carry no semantics beyond
bracketing, so the AST has no constructor for them. -/
inductive RE where
  | never
  | eps
  | chr (c : Char)
  | cls (neg : Bool) (items : List ClsItem)
  | alt (a b : RE)
  | cat (a b : RE)
  | star (a : RE)
deriving DecidableEq, Repr

/-- Does the expression accept the empty string? -/
def RE.nullable : RE → Bool
  | .never => false
  | .eps => true
  | .chr _ => false
  | .cls _ _ => false
  | .alt a b => a.nullable || b.nullable
  | .cat a b => a.nullable && b.nullable
  | .star _ => true

/-- Brzozowski derivative: `r.deriv c` accepts `s` iff `r` accepts `c :: s`. -/
def RE.deriv : RE → Char → RE
  | .never, _ => .never
  | .eps, _ => .never
  | .chr d, c => if c = d then .eps else .never
  | .cls neg items, c => if clsMatch neg items c then .eps else .never
  | .alt a b, c => .alt (a.deriv c) (b.deriv c)
  | .cat a b, c =>
    if a.nullable then .alt (.cat (a.deriv c) b) (b.deriv c)
    else .cat (a.deriv c) b
  | .star a, c => .cat (a.deriv c) (.star a)

/-- Executable matcher: does `r` accept exactly the character list `s`? -/
def rmatch (r : RE) : List Char → Bool
  | [] => r.nullable
  | c :: s => rmatch (r.deriv c) s

/-- The class items of the regex class `\s`. -/
def wsItems : List ClsItem :=
  [.one ' ', .one '\t', .one '\n', .one '\r', .one '\x0b', .one '\x0c']

/-- The class items of the regex class `\d`. -/
def digitItems : List ClsItem := [.rng '0' '9']

/-- The class items of the regex class `\w` (ASCII model). -/
def wordItems : List ClsItem :=
  [.rng 'a' 'z', .rng 'A' 'Z', .rng '0' '9', .one '_']

/-- The sequence of literal character atoms the parser builds for a run of
literal characters, in the shape its sequence-builder produces. -/
def litSeq (cs : List Char) : RE :=
  cs.foldl (fun acc c => .cat acc (.chr c)) .eps

/-- Model of `re`'s matching of an anchored pattern `^body$` against a whole
string via `regex.match(text)`: the body must span the entire string, except
that `$` also asserts just before a trailing newline. -/
def pyMatchAnchored (r : RE) (s : List Char) : Bool :=
  rmatch r s || (decide (s.getLast? = some '\n') && rmatch r s.dropLast)

/-- One open group of the pattern parser: `isGroup` is false only for the
outermost frame, `alts` holds the completed alternatives (most recent
first), `atoms` the atoms of the current alternative (most recent first),
and `qstate` tracks quantification of the newest atom (0 unquantified,
1 quantified, 2 quantified with the lazy marker). -/
structure PFrame where
  isGroup : Bool
  alts : List RE
  atoms : List RE
  qstate : Nat
deriving Repr

/-- Concatenate a frame's atoms (most recent first) into one expression. -/
def seqOf (atoms : List RE) : RE :=
  atoms.reverse.foldl .cat .eps

/-- Combine a frame's alternatives (most recent first) into one expression. -/
def altsOf (alts : List RE) : RE :=
  match alts.reverse with
  | [] => .never
  | a :: rest => rest.foldl .alt a

/-- The expression a frame denotes once it closes. -/
def PFrame.close (f : PFrame) : RE :=
  altsOf (seqOf f.atoms :: f.alts)

/-- Append a fresh (unquantified) atom to the current alternative. -/
def PFrame.pushAtom (f : PFrame) (a : RE) : PFrame :=
  ⟨f.isGroup, f.alts, a :: f.atoms, 0⟩

/-- Seeing `|`: the current alternative is complete. -/
def PFrame.newAlt (f : PFrame) : PFrame :=
  ⟨f.isGroup, seqOf f.atoms :: f.alts, [], 0⟩

/-- Apply a quantifier character to the newest atom.  Mirrors Python's
errors: nothing to repeat, and multiple repeat (a bare second quantifier);
a single `?` after a quantifier is the lazy marker, which leaves the
recognized language unchanged. -/
def applyQuant (c : Char) (f : PFrame) : Option PFrame :=
  match f.atoms with
  | [] => none
  | a :: rest =>
    if f.qstate = 0 then
      let a2 : RE :=
        if c = '*' then .star a
        else if c = '+' then .cat a (.star a)
        else .alt a .eps
      some ⟨f.isGroup, f.alts, a2 :: rest, 1⟩
    else if f.qstate = 1 ∧ c = '?' then some ⟨f.isGroup, f.alts, a :: rest, 2⟩
    else none

/-- Parse the items of a character class body (no escapes inside classes in
the modelled subset). -/
def parseClsItems : List Char → Option (List ClsItem)
  | [] => some []
  | '\\' :: _ => none
  | a :: '-' :: b :: rest =>
    if a ≤ b then (parseClsItems rest).map (fun items => .rng a b :: items)
    else none
  | a :: rest => (parseClsItems rest).map (fun items => .one a :: items)

/-- Characters allowed in a group name. -/
def isNameChar (c : Char) : Bool :=
  c.isAlpha || c.isDigit || c = '_'

/-- Python group names must be identifiers (ASCII model). -/
def validGroupName : List Char → Bool
  | [] => false
  | c :: rest => (c.isAlpha || c = '_') && (c :: rest).all isNameChar

/-- The lexical mode of the pattern parser: past a backslash, past the
openers of a group construct, inside a group name, or inside a character
class. -/
inductive PMode where
  | normal
  | esc
  | grp0
  | grp1
  | grp2
  | gname (acc : List Char)
  | cls0
  | cls1 (neg : Bool) (acc : List Char)
deriving DecidableEq, Repr

/-- The pattern parser's state: the stack of open groups (innermost first;
the bottom entry is the top level), the group names seen so far (Python
rejects a redefined group name, also across the concatenated pieces of one
compiled pattern), and the lexical mode. -/
structure PState where
  frames : List PFrame
  names : List String
  mode : PMode
deriving Repr

/-- Push one atom onto the innermost frame. -/
def pushAtomSt (st : PState) (a : RE) : Option PState :=
  match st.frames with
  | [] => none
  | f :: fs => some ⟨f.pushAtom a :: fs, st.names, .normal⟩

/-- One pattern character in normal mode.  Mirrors the subset of Python
`re.compile`'s grammar the module comment describes; constructs outside it
(lookarounds via `(?`..., unknown escapes, bare anchors) fail. -/
def stepNormal (st : PState) (c : Char) : Option PState :=
  if c = '\\' then some ⟨st.frames, st.names, .esc⟩
  else if c = '(' then some ⟨st.frames, st.names, .grp0⟩
  else if c = ')' then
    match st.frames with
    | f :: parent :: fs =>
      if f.isGroup then some ⟨parent.pushAtom f.close :: fs, st.names, .normal⟩
      else none
    | _ => none
  else if c = '|' then
    match st.frames with
    | [] => none
    | f :: fs => some ⟨f.newAlt :: fs, st.names, .normal⟩
  else if c = '[' then some ⟨st.frames, st.names, .cls0⟩
  else if c = '.' then pushAtomSt st (.cls true [.one '\n'])
  else if c = '^' ∨ c = '$' then none
  else if c = '*' ∨ c = '+' ∨ c = '?' then
    match st.frames with
    | [] => none
    | f :: fs =>
      match applyQuant c f with
      | some f2 => some ⟨f2 :: fs, st.names, .normal⟩
      | none => none
  else pushAtomSt st (.chr c)

/-- One pattern character, dispatching on the lexical mode. -/
def stepChar (st : PState) (c : Char) : Option PState :=
  match st.mode with
  | .normal => stepNormal st c
  | .esc =>
    if c = 's' then pushAtomSt st (.cls false wsItems)
    else if c = 'd' then pushAtomSt st (.cls false digitItems)
    else if c = 'w' then pushAtomSt st (.cls false wordItems)
    else if c = 'n' then pushAtomSt st (.chr '\n')
    else if c = 't' then pushAtomSt st (.chr '\t')
    else if c = 'r' then pushAtomSt st (.chr '\r')
    else if c.isAlphanum then none
    else pushAtomSt st (.chr c)
  | .grp0 =>
    if c = '?' then some ⟨st.frames, st.names, .grp1⟩
    else stepNormal ⟨⟨true, [], [], 0⟩ :: st.frames, st.names, .normal⟩ c
  | .grp1 =>
    if c = ':' then some ⟨⟨true, [], [], 0⟩ :: st.frames, st.names, .normal⟩
    else if c = 'P' then some ⟨st.frames, st.names, .grp2⟩
    else none
  | .grp2 =>
    if c = '<' then some ⟨st.frames, st.names, .gname []⟩
    else none
  | .gname acc =>
    if c = '>' then
      let nm := acc.reverse
      if validGroupName nm ∧ ¬(st.names.contains (String.mk nm)) then
        some ⟨⟨true, [], [], 0⟩ :: st.frames, String.mk nm :: st.names, .normal⟩
      else none
    else some ⟨st.frames, st.names, .gname (c :: acc)⟩
  | .cls0 =>
    if c = '^' then some ⟨st.frames, st.names, .cls1 true []⟩
    else if c = ']' then none
    else some ⟨st.frames, st.names, .cls1 false [c]⟩
  | .cls1 neg acc =>
    if c = ']' then
      if acc.isEmpty then none
      else
        match parseClsItems acc.reverse with
        | some items => pushAtomSt st (.cls neg items)
        | none => none
    else if c = '\\' then none
    else some ⟨st.frames, st.names, .cls1 neg (c :: acc)⟩

/-- End of the pattern: the mode must be normal (no dangling backslash,
group opener, name or class) and exactly the top-level frame open. -/
def finishParse (st : PState) : Option RE :=
  match st.mode with
  | .normal =>
    match st.frames with
    | [f] => if f.isGroup then none else some f.close
    | _ => none
  | _ => none

/-- The initial parser state. -/
def initPState : PState :=
  ⟨[⟨false, [], [], 0⟩], [], .normal⟩

/-- Model of `re.compile` success on a bare pattern string (no anchors), as
used to validate each embedded regex piece: fold the characters through
the state machine. -/
def reParse (cs : List Char) : Option RE := do
  let st ← cs.foldlM stepChar initPState
  finishParse st

/-- Model of `re.compile` on the final check pattern, which the source
always builds in the shape `^ ... $`: strip the two anchors and parse the
body.  The `$` semantics live in `pyMatchAnchored`. -/
def reCompileAnchored (cs : List Char) : Option RE :=
  match cs with
  | '^' :: rest =>
    if rest.getLast? = some '$' then reParse rest.dropLast else none
  | _ => none

/-- Scan for the closing `\x7d\x7d` of a brace region.  The capture is the
text before the first such pair; it may not contain a newline (the
source's nongreedy dot does not cross lines). -/
def findClose : List Char → Option (List Char × List Char)
  | [] => none
  | c :: rest =>
    if c = '\x7d' ∧ rest.head? = some '\x7d' then some ([], rest.tail)
    else if c = '\n' then none
    else (findClose rest).map (fun p => (c :: p.1, p.2))

/-- Find the leftmost `\x7b\x7b...\x7d\x7d` region, scanning start
positions left to right exactly as the regex engine does: returns
(text before, capture, text after). -/
def findBracket : List Char → Option (List Char × List Char × List Char)
  | [] => none
  | c :: rest =>
    if c = '\x7b' ∧ rest.head? = some '\x7b' then
      match findClose rest.tail with
      | some (cap, after) => some ([], cap, after)
      | none => (findBracket rest).map (fun t => (c :: t.1, t.2.1, t.2.2))
    else (findBracket rest).map (fun t => (c :: t.1, t.2.1, t.2.2))

/-- The fuelled recursion behind `bracketSplit`.  `findBracket_length`
shows each found region consumes at least two characters, so the fuel
`bracketSplit` supplies never runs out: with `cs.length ≤ fuel + 1` the
fuel-0 branch is reached only when `findBracket` has no match, where it
agrees with the match on `none`. -/
def bracketSplitF : Nat → List Char → List (List Char)
  | 0, cs => [cs]
  | n + 1, cs =>
    match findBracket cs with
    | none => [cs]
    | some (before, cap, after) => before :: cap :: bracketSplitF n after

/-- Split a payload around each `\x7b\x7b...\x7d\x7d` region, as the
source's `bracket_re.split`: even positions (0-based) are literal pieces,
odd positions the captured regex pieces. -/
def bracketSplit (cs : List Char) : List (List Char) :=
  bracketSplitF cs.length cs

/-- The characters Python `re.escape` escapes (its special-character map,
Python 3.7+). -/
def reSpecial : List Char :=
  ['(', ')', '[', ']', '\x7b', '\x7d', '?', '*', '+', '-', '|', '^', '$',
   '\\', '.', '&', '~', '#', ' ', '\t', '\n', '\r', '\x0b', '\x0c']

/-- Model of `re.escape`: a backslash before every special character. -/
def reEscape (cs : List Char) : List Char :=
  (cs.map (fun c => if c ∈ reSpecial then ['\\', c] else [c])).flatten

/-- The fixture-scoped failures of the model.  `CheckerError` of the source
carries a message and a line; the model keeps the distinct messages as
variants.  `indexErr` models the uncaught `IndexError` of `lines[0]` on an
empty fixture and `reErr` the uncaught `re.error` from compiling the
joined pattern: both escape the source's own `CheckerError` handling. -/
inductive CheckerErr where
  | invalidRun (line : CLine)
  | noRunDirectives
  | indexErr
  | invalidPattern (piece : String) (line : CLine)
  | reErr (line : CLine)
deriving DecidableEq, Repr

/-- Model of the source's `CheckCmd`: the payload line, the check type, and
the compiled regex. -/
structure CheckCmd where
  line : CLine
  type : String
  regex : RE
deriving DecidableEq, Repr

/-- The piece loop of `CheckCmd.parse`: even pieces are escaped literals,
odd pieces are validated as standalone regexes (first failure raises
`InvalidPattern` naming the piece) and kept verbatim. -/
def buildPieces (l : CLine) : List (List Char) → Bool → Except CheckerErr (List (List Char))
  | [], _ => .ok []
  | p :: rest, even =>
    if even then do
      let rs ← buildPieces l rest false
      .ok (reEscape p :: rs)
    else
      match reParse p with
      | some _ => do
        let rs ← buildPieces l rest true
        .ok (p :: rs)
      | none => .error (.invalidPattern (String.mk p) l)

/-- Model of `CheckCmd.parse`: split the payload, escape/validate the
pieces, wrap each in a non-capturing group, join with the whitespace
anchors `^\s*` and `\s*\n?$`, and compile the joined pattern. -/
def CheckCmd.parse (l : CLine) (checktype : String) : Except CheckerErr CheckCmd := do
  let pieces := bracketSplit l.text.data
  let rs ← buildPieces l pieces true
  let wrapped := rs.map (fun s => '(' :: '?' :: ':' :: (s ++ [')']))
  let full := ('^' :: '\\' :: 's' :: '*' :: []) ++ wrapped.flatten ++
              ('\\' :: 's' :: '*' :: '\\' :: 'n' :: '?' :: '$' :: [])
  match reCompileAnchored full with
  | some r => .ok ⟨l, checktype, r⟩
  | none => .error (.reErr l)

instance exceptDecEq {ε α : Type} [DecidableEq ε] [DecidableEq α] :
    DecidableEq (Except ε α)
  | .error e, .error f =>
    if h : e = f then .isTrue (by rw [h])
    else .isFalse (fun hh => h (Except.error.inj hh))
  | .error _, .ok _ => .isFalse (fun hh => Except.noConfusion hh)
  | .ok _, .error _ => .isFalse (fun hh => Except.noConfusion hh)
  | .ok a, .ok b =>
    if h : a = b then .isTrue (by rw [h])
    else .isFalse (fun hh => h (Except.ok.inj hh))

/-- The compiled check a payload produces, with a default for the error
case; each use pairs it with an equation showing the parse really returned
it. -/
def okCheck (payload : String) (n : Nat) (file : String) (ctype : String) : CheckCmd :=
  match CheckCmd.parse ⟨payload, n, file⟩ ctype with
  | .ok c => c
  | .error _ => ⟨⟨payload, n, file⟩, ctype, .never⟩

/-- The anchor of a failed match: the `line`/`check` pair the source's
`TestFailure` constructor receives.  The `TestFailure`'s other fields
(`diff`, `lines`, `checks`) only render the report and never affect which
anchor is produced, so the model omits them. -/
inductive TFAnchor where
  | mismatch (line : CLine) (check : CheckCmd)
  | leftoverLine (line : CLine)
  | leftoverCheck (check : CheckCmd)
deriving DecidableEq, Repr

/-- Does the compiled check accept the line
(`check.regex.match(line.text)` being truthy)? -/
def checkAccepts (check : CheckCmd) (l : CLine) : Bool :=
  pyMatchAnchored check.regex l.text.data

/-- The main loop of `TestRun.check`.  The source keeps both queues
reversed and pops from the end; the model keeps the front of each queue at
the head.  Returns the remaining lines, the remaining checks, and the
recorded mismatches in order. -/
def checkLoop : List CLine → List CheckCmd → List (CLine × CheckCmd) →
    List CLine × List CheckCmd × List (CLine × CheckCmd)
  | line :: lrest, check :: crest, mism =>
    if checkAccepts check line then checkLoop lrest crest mism
    else if line.isEmptySpace then checkLoop lrest (check :: crest) mism
    else checkLoop lrest crest (mism ++ [(line, check)])
  | lineq, checkq, mism => (lineq, checkq, mism)

/-- The tail of `TestRun.check` after the loop: drain the blank lines at
the front of the remaining queue, then anchor the outcome with the
source's priority (first mismatch, else first leftover line, else first
leftover check, else success). -/
def checkOutcome (r : List CLine × List CheckCmd × List (CLine × CheckCmd)) :
    Option TFAnchor :=
  match r.2.2.head? with
  | some (l, c) => some (.mismatch l c)
  | none =>
    match (r.1.dropWhile CLine.isEmptySpace).head? with
    | some l => some (.leftoverLine l)
    | none =>
      match r.2.1.head? with
      | some c => some (.leftoverCheck c)
      | none => none

/-- Model of `TestRun.check` (its outcome anchor). -/
def streamCheck (lines : List CLine) (checks : List CheckCmd) : Option TFAnchor :=
  checkOutcome (checkLoop lines checks [])

/-- The matching algorithm exactly as claim C1 words it: the greedy loop
(consume both on a match, discard a non-matching blank line, otherwise
record the pair as the first mismatch if none is recorded yet and advance
both), then the outcome priority: failure at the first recorded mismatch,
else at the first leftover actual line (blank lines never being content),
else at the first leftover pattern, else success. -/
def specCheck : List CLine → List CheckCmd → Option (CLine × CheckCmd) →
    Option TFAnchor
  | line :: lrest, check :: crest, firstMM =>
    if checkAccepts check line then specCheck lrest crest firstMM
    else if line.isEmptySpace then specCheck lrest (check :: crest) firstMM
    else specCheck lrest crest (firstMM <|> some (line, check))
  | lineq, checkq, firstMM =>
    match firstMM with
    | some (l, c) => some (.mismatch l c)
    | none =>
      match (lineq.dropWhile CLine.isEmptySpace).head? with
      | some l => some (.leftoverLine l)
      | none =>
        match checkq.head? with
        | some c => some (.leftoverCheck c)
        | none => none

/-- Identifier characters of a substitution token: `[a-zA-Z0-9_-]`. -/
def isTokenChar (c : Char) : Bool :=
  ('a' ≤ c && c ≤ 'z') || ('A' ≤ c && c ≤ 'Z') || ('0' ≤ c && c ≤ '9') ||
    c = '_' || c = '-'

/-- The per-token resolver `subber` of `perform_substitution`: the first
key, in the given order, that is a prefix of the captured text wins, and
only that key's length of the text is consumed; with no matching key the
captured text itself is returned (note the leading `%` of the match is not
part of the captured text). -/
def subber (subsOrdered : List (String × String)) (text : List Char) : List Char :=
  match subsOrdered.find? (fun kv => kv.1.data.isPrefixOf text) with
  | some kv => kv.2.data ++ text.drop kv.1.length
  | none => text

/-- The fuelled recursion behind `subScan`: each step consumes at least
one character and one unit of fuel, so fuel `cs.length` never runs out. -/
def subScanF (so : List (String × String)) : Nat → List Char → List Char
  | _, [] => []
  | 0, cs => cs
  | n + 1, c :: rest =>
    if c = '%' then
      if rest.head? = some '%' then
        subber so ['%'] ++ subScanF so n rest.tail
      else
        let tok := rest.takeWhile isTokenChar
        if tok.isEmpty then '%' :: subScanF so n rest
        else subber so tok ++ subScanF so n (rest.drop tok.length)
    else c :: subScanF so n rest

/-- The scan of `re.sub(r"%(%|[a-zA-Z0-9_-]+)", subber, input)`: find the
non-overlapping matches left to right (a `%` followed by another `%`, or
by a nonempty maximal run of token characters), replace each with
`subber`'s result, and copy the characters in between. -/
def subScan (so : List (String × String)) (cs : List Char) : List Char :=
  subScanF so cs.length cs

/-- Stable insertion into a list ordered by descending key length: the
inserted, originally-earlier element goes before the later elements of
equal key length. -/
def insertDesc (x : String × String) : List (String × String) → List (String × String)
  | [] => [x]
  | y :: ys =>
    if y.1.length ≤ x.1.length then x :: y :: ys else y :: insertDesc x ys

/-- Model of `sorted(subs.items(), key=lambda s: len(s[0]), reverse=True)`:
a stable sort by descending key length (any stable sort produces Python's
result; an insertion sort keeps the model's evaluation kernel-reducible). -/
def sortByKeyLenDesc : List (String × String) → List (String × String)
  | [] => []
  | x :: xs => insertDesc x (sortByKeyLenDesc xs)

/-- Model of `perform_substitution`: sort the substitutions by descending
key length (Python's stable `sorted(..., reverse=True)`; the list models
the dict's items in insertion order) and scan the input. -/
def performSubstitution (input : String) (subs : List (String × String)) : String :=
  String.mk (subScan (sortByKeyLenDesc subs) input.data)

/-- Match the tail `\s+(.*)\n` of a directive regex against a prefix of
`cs.drop j` having already taken `j` whitespace characters: the capture is
the maximal non-newline run, which the required `\n` must follow. -/
def tryPayloadAt (cs : List Char) (j : Nat) : Option (List Char) :=
  let rest := cs.drop j
  let cap := rest.takeWhile (fun c => c ≠ '\n')
  if (rest.drop cap.length).head? = some '\n' then some cap else none

/-- Match `\s+(.*)\n` against a prefix of `cs` in the engine's backtracking
order: `\s+` greedily takes the maximal whitespace run and backs off one
character at a time (never below one), `(.*)` cannot cross a newline. -/
def matchPayload (cs : List Char) : Option (List Char) :=
  let m := (cs.takeWhile isPySpace).length
  if m = 0 then none
  else ((List.range m).reverse.map (fun i => i + 1)).findSome? (tryPayloadAt cs)

/-- After the `#`: match `\s*KEY:\s+(.*)\n` against a prefix.  `\s*` must
take the maximal whitespace run, as the keyword cannot begin with
whitespace. -/
def matchAfterHash (key : List Char) (cs : List Char) : Option (List Char) :=
  let rest := cs.dropWhile isPySpace
  if key.isPrefixOf rest then matchPayload (rest.drop key.length) else none

/-- Model of the directive regexes' matching:
`regex.match(text)` with pattern `^(?:[^#].*)?#\s*KEY:\s+(.*)\n` (a prefix
match).  The `#` sits at position 0, or else after a first character that
is not `#` (any character, `[^#]` crosses newlines) and a run of
non-newline characters; the greedy `.*` prefers the rightmost feasible
`#`.  Returns the captured payload. -/
def directiveMatch (key : List Char) (cs : List Char) : Option (List Char) :=
  match cs with
  | [] => none
  | c :: rest =>
    if c = '#' then matchAfterHash key rest
    else
      let limit := (rest.takeWhile (fun d => d ≠ '\n')).length + 1
      (((List.range (limit + 1)).reverse).filter
          (fun p => decide (1 ≤ p) && decide ((cs.drop p).head? = some '#'))).findSome?
        (fun p => matchAfterHash key (cs.drop (p + 1)))

/-- The scanner's keys, each including the colon of `KEY:`. -/
def runKey : List Char := "RUN:".data

/-- The stdout-check key. -/
def checkKey : List Char := "CHECK:".data

/-- The stderr-check key. -/
def checkerrKey : List Char := "CHECKERR:".data

/-- The `group1s` helper of `Checker.__init__`: every matching line,
re-tagged with the captured payload (`line.subline(m.group(1))`). -/
def group1s (key : List Char) (lines : List CLine) : List CLine :=
  lines.filterMap (fun l =>
    (directiveMatch key l.text.data).map
      (fun cap => ⟨String.mk cap, l.number, l.file⟩))

/-- Model of the source's `RunCmd`: the unexpanded command text and its
line. -/
structure RunCmd where
  args : String
  line : CLine
deriving DecidableEq, Repr

/-- Model of the dependency `shlex.split`'s emptiness: it produces at least
one word exactly when the text has a non-whitespace character. -/
def shlexHasTokens (s : String) : Bool :=
  s.data.any (fun c => !(isPySpace c))

/-- Model of `RunCmd.parse`: a RUN payload with no shell words is
invalid. -/
def RunCmd.parse (l : CLine) : Except CheckerErr RunCmd :=
  if shlexHasTokens l.text then .ok ⟨l.text, l⟩
  else .error (.invalidRun l)

/-- The run-command phase of `Checker.__init__`: parse every RUN match; if
none was found, fall back to a shebang first line
(`RunCmd(lines[0].text[2:-1] + " %s", lines[0])`) — on an empty fixture
`lines[0]` raises an index error; otherwise fail with `NoRunDirectives`. -/
def computeRunCmds (lines : List CLine) : Except CheckerErr (List RunCmd) := do
  let cmds ← (group1s runKey lines).mapM RunCmd.parse
  if cmds.isEmpty then
    match lines.head? with
    | none => .error .indexErr
    | some l0 =>
      if "#!".data.isPrefixOf l0.text.data then
        .ok [⟨String.mk ((l0.text.data.drop 2).dropLast ++ " %s".data), l0⟩]
      else .error .noRunDirectives
  else .ok cmds

/-- Model of the source's `Checker`. -/
structure Checker where
  runcmds : List RunCmd
  outchecks : List CheckCmd
  errchecks : List CheckCmd
deriving DecidableEq, Repr

/-- Model of `Checker.__init__`. -/
def checkerInit (lines : List CLine) : Except CheckerErr Checker := do
  let runcmds ← computeRunCmds lines
  let outchecks ← (group1s checkKey lines).mapM (fun sl => CheckCmd.parse sl "CHECK")
  let errchecks ← (group1s checkerrKey lines).mapM (fun sl => CheckCmd.parse sl "CHECKERR")
  .ok ⟨runcmds, outchecks, errchecks⟩

/-- Python file iteration (the line source of `Line.readfile`): split the
content after each newline, keeping the newline; a final line without a
trailing newline is kept as is; an empty content yields no lines.  `acc`
holds the current line's characters in reverse. -/
def splitLinesAux : List Char → List Char → List (List Char)
  | [], acc => if acc.isEmpty then [] else [acc.reverse]
  | c :: rest, acc =>
    if c = '\n' then (acc.reverse ++ ['\n']) :: splitLinesAux rest []
    else splitLinesAux rest (c :: acc)

/-- The lines of a file's content, newlines kept. -/
def splitLinesKeep (cs : List Char) : List (List Char) :=
  splitLinesAux cs []

/-- Model of `Line.readfile`. -/
def readfile (content : String) (name : String) : List CLine :=
  (splitLinesKeep content.data).mapIdx (fun i l => ⟨String.mk l, i + 1, name⟩)

/-- Model of `check_file`'s loop over its RUN directives.  Executing and
matching one directive is `TestRun.run()`, whose process spawning is an
external collaborator, so the model takes the per-directive results as
given: `.ok none` for success, `.ok (some f)` for a match failure and
`.error e` for a raised `CheckerError`.  The loop hands every failure to
the failure handler (collected here in order) and clears the success
flag; a raised error propagates and aborts the loop. -/
def checkFileLoop : List (Except CheckerErr (Option TFAnchor)) → Bool →
    List TFAnchor → Except CheckerErr (Bool × List TFAnchor)
  | [], success, handled => .ok (success, handled)
  | .error e :: _, _, _ => .error e
  | .ok none :: rest, success, handled => checkFileLoop rest success handled
  | .ok (some f) :: rest, _, handled => checkFileLoop rest false (handled ++ [f])

/-- Model of `check_file` over the given per-directive results: the success
flag and the failures handled. -/
def checkFile (runs : List (Except CheckerErr (Option TFAnchor))) :
    Except CheckerErr (Bool × List TFAnchor) :=
  checkFileLoop runs true []

/-- The scan of `pre ++ x` cannot form a token match across the boundary
when `pre` is empty or ends in a character that is neither `%` nor a token
character. -/
def cleanBoundary (pre : List Char) : Bool :=
  match pre.getLast? with
  | none => true
  | some c => !(isTokenChar c) && decide (c ≠ '%')

/-- Push the characters of a literal run as character atoms, oldest
first. -/
def pushLits (f : PFrame) : List Char → PFrame
  | [] => f
  | c :: p => pushLits (f.pushAtom (.chr c)) p

/-- The compiled regex of a purely-literal payload `p`:
`^\s*(?:p-escaped)\s*\n?$` as the parser builds it. -/
def litCompiled (p : List Char) : RE :=
  .cat (.cat (.cat (.cat .eps (.star (.cls false wsItems))) (litSeq p))
    (.star (.cls false wsItems))) (.alt (.chr '\n') .eps)

/-- The middle of the joined pattern for a single literal piece, between
the `^` and the `$`. -/
def litMid (p : List Char) : List Char :=
  '\\' :: 's' :: '*' :: '(' :: '?' :: ':' ::
    (reEscape p ++ (')' :: '\\' :: 's' :: '*' :: '\\' :: 'n' :: '?' :: []))

/-- The first embedded-regex piece (odd position of the split payload, i.e.
the contents of a `\x7b\x7b...\x7d\x7d` span) that does not parse, in the
validation loop's order. -/
def firstBadPiece : List (List Char) → Bool → Option (List Char)
  | [], _ => none
  | p :: rest, even =>
    if even then firstBadPiece rest false
    else
      match reParse p with
      | some _ => firstBadPiece rest true
      | none => some p

/-- Is a per-directive run result a completed `TestRun.run()` (no raised
`CheckerError`)? -/
def isOkRun : Except CheckerErr (Option TFAnchor) → Bool
  | .ok _ => true
  | .error _ => false

/-- The match failures among the per-directive run results, in directive
order. -/
def failuresOf (runs : List (Except CheckerErr (Option TFAnchor))) : List TFAnchor :=
  runs.filterMap (fun r =>
    match r with
    | .ok (some f) => some f
    | _ => none)

@[simp]
theorem rmatch_nil (r : RE) : rmatch r [] = r.nullable := rfl

@[simp]
theorem rmatch_cons (r : RE) (c : Char) (s : List Char) :
    rmatch r (c :: s) = rmatch (r.deriv c) s := rfl

@[simp]
theorem rmatch_never (s : List Char) : rmatch .never s = false := by
  induction s with
  | nil => rfl
  | cons c s ih => simpa [rmatch, RE.deriv] using ih

theorem rmatch_eps_iff (s : List Char) : rmatch .eps s = true ↔ s = [] := by
  cases s with
  | nil => simp [rmatch, RE.nullable]
  | cons c s => simp [rmatch, RE.deriv]

theorem rmatch_chr_iff (d : Char) (s : List Char) :
    rmatch (.chr d) s = true ↔ s = [d] := by
  cases s with
  | nil => simp [rmatch, RE.nullable]
  | cons c s =>
    simp only [rmatch, RE.deriv]
    by_cases h : c = d
    · subst h
      rw [if_pos rfl, rmatch_eps_iff]
      simp
    · rw [if_neg h, rmatch_never]
      simp [h]

theorem rmatch_cls_iff (neg : Bool) (items : List ClsItem) (s : List Char) :
    rmatch (.cls neg items) s = true ↔
      ∃ c, s = [c] ∧ clsMatch neg items c = true := by
  cases s with
  | nil => simp [rmatch, RE.nullable]
  | cons c s =>
    simp only [rmatch, RE.deriv]
    by_cases h : clsMatch neg items c = true
    · rw [if_pos h, rmatch_eps_iff]
      constructor
      · rintro rfl
        exact ⟨c, rfl, h⟩
      · rintro ⟨d, hs, _⟩
        exact (List.cons_eq_cons.mp hs).2
    · rw [if_neg h, rmatch_never]
      simp only [Bool.false_eq_true, false_iff]
      rintro ⟨d, hs, hd⟩
      obtain ⟨rfl, rfl⟩ := List.cons_eq_cons.mp hs
      exact h hd

theorem rmatch_alt_iff (a b : RE) (s : List Char) :
    rmatch (.alt a b) s = true ↔ rmatch a s = true ∨ rmatch b s = true := by
  induction s generalizing a b with
  | nil => simp [rmatch, RE.nullable]
  | cons c s ih => simpa [rmatch, RE.deriv] using ih (a.deriv c) (b.deriv c)

theorem rmatch_cat_iff (a b : RE) (s : List Char) :
    rmatch (.cat a b) s = true ↔
      ∃ t u, s = t ++ u ∧ rmatch a t = true ∧ rmatch b u = true := by
  induction s generalizing a b with
  | nil =>
    simp only [rmatch, RE.nullable, Bool.and_eq_true]
    constructor
    · rintro ⟨ha, hb⟩
      exact ⟨[], [], rfl, ha, hb⟩
    · rintro ⟨t, u, h, ha, hb⟩
      obtain ⟨rfl, rfl⟩ := List.append_eq_nil.mp h.symm
      exact ⟨ha, hb⟩
  | cons c s ih =>
    simp only [rmatch, RE.deriv]
    by_cases hn : a.nullable
    · rw [if_pos hn, rmatch_alt_iff, ih]
      constructor
      · rintro (⟨t, u, hs, ha, hb⟩ | hb)
        · exact ⟨c :: t, u, by simp [hs], ha, hb⟩
        · exact ⟨[], c :: s, rfl, hn, hb⟩
      · rintro ⟨t, u, hs, ha, hb⟩
        cases t with
        | nil =>
          right
          rw [List.nil_append] at hs
          rw [← hs] at hb
          exact hb
        | cons d t =>
          left
          obtain ⟨rfl, hs'⟩ := List.cons_eq_cons.mp hs
          exact ⟨t, u, hs', ha, hb⟩
    · rw [if_neg hn, ih]
      constructor
      · rintro ⟨t, u, hs, ha, hb⟩
        exact ⟨c :: t, u, by simp [hs], ha, hb⟩
      · rintro ⟨t, u, hs, ha, hb⟩
        cases t with
        | nil =>
          rw [rmatch_nil] at ha
          exact absurd ha hn
        | cons d t =>
          obtain ⟨rfl, hs'⟩ := List.cons_eq_cons.mp hs
          exact ⟨t, u, hs', ha, hb⟩

theorem rmatch_cat_eps_left (r : RE) (s : List Char) :
    rmatch (.cat .eps r) s = true ↔ rmatch r s = true := by
  rw [rmatch_cat_iff]
  constructor
  · rintro ⟨t, u, hs, ht, hu⟩
    rw [(rmatch_eps_iff t).mp ht] at hs
    rw [List.nil_append] at hs
    rwa [hs]
  · intro h
    exact ⟨[], s, rfl, by simp [rmatch, RE.nullable], h⟩

theorem clsMatch_wsItems (c : Char) :
    clsMatch false wsItems c = isPySpace c := by
  simp only [clsMatch, wsItems, isPySpace, List.any, clsItemMatch, xor]
  cases h1 : decide (c = ' ') <;> cases h2 : decide (c = '\t') <;>
    cases h3 : decide (c = '\n') <;> cases h4 : decide (c = '\r') <;>
    cases h5 : decide (c = '\x0b') <;> cases h6 : decide (c = '\x0c') <;> simp_all

/-- Matching an arbitrary run of whitespace: the language of `\s*`. -/
theorem rmatch_star_ws_iff (s : List Char) :
    rmatch (.star (.cls false wsItems)) s = true ↔ s.all isPySpace = true := by
  induction s with
  | nil => simp [rmatch, RE.nullable]
  | cons c s ih =>
    rw [rmatch_cons]
    show rmatch (.cat ((RE.cls false wsItems).deriv c) _) s = true ↔ _
    simp only [RE.deriv, clsMatch_wsItems, List.all_cons, Bool.and_eq_true]
    by_cases hc : isPySpace c = true
    · rw [if_pos hc, rmatch_cat_eps_left, ih]
      simp [hc]
    · rw [if_neg hc]
      have : rmatch (RE.cat .never (.star (.cls false wsItems))) s = false := by
        rw [Bool.eq_false_iff]
        intro hmm
        obtain ⟨t, u, _, hft, _⟩ := (rmatch_cat_iff _ _ _).mp hmm
        rw [rmatch_never] at hft
        exact Bool.false_ne_true hft
      rw [this]
      simp [hc]

theorem rmatch_foldl_cat_chr (cs : List Char) (acc : RE) (s : List Char) :
    rmatch (cs.foldl (fun acc c => RE.cat acc (.chr c)) acc) s = true ↔
      ∃ t, s = t ++ cs ∧ rmatch acc t = true := by
  induction cs generalizing acc s with
  | nil =>
    simp only [List.foldl_nil, List.append_nil]
    constructor
    · intro h
      exact ⟨s, rfl, h⟩
    · rintro ⟨t, rfl, h⟩
      exact h
  | cons c cs ih =>
    rw [List.foldl_cons, ih]
    constructor
    · rintro ⟨t, rfl, ht⟩
      obtain ⟨t1, t2, rfl, h1, h2⟩ := (rmatch_cat_iff _ _ _).mp ht
      rw [rmatch_chr_iff] at h2
      subst h2
      exact ⟨t1, by simp, h1⟩
    · rintro ⟨t, rfl, ht⟩
      refine ⟨t ++ [c], by simp, ?_⟩
      exact (rmatch_cat_iff _ _ _).mpr ⟨t, [c], rfl, ht, (rmatch_chr_iff _ _).mpr rfl⟩

theorem rmatch_litSeq_iff (cs s : List Char) :
    rmatch (litSeq cs) s = true ↔ s = cs := by
  rw [litSeq, rmatch_foldl_cat_chr]
  constructor
  · rintro ⟨t, rfl, ht⟩
    rw [(rmatch_eps_iff t).mp ht]
    rfl
  · rintro rfl
    exact ⟨[], rfl, by simp [rmatch, RE.nullable]⟩

theorem findClose_length {cs : List Char} : ∀ {cap after : List Char},
    findClose cs = some (cap, after) → after.length + 2 ≤ cs.length := by
  induction cs with
  | nil => intro cap after h; simp [findClose] at h
  | cons c rest ih =>
    intro cap after h
    rw [findClose] at h
    by_cases hc : c = '\x7d' ∧ rest.head? = some '\x7d'
    · rw [if_pos hc] at h
      have h2 : rest.tail = after := congrArg Prod.snd (Option.some.inj h)
      obtain ⟨-, hh⟩ := hc
      cases rest with
      | nil => simp at hh
      | cons d rest2 =>
        simp only [List.tail_cons] at h2
        subst h2
        simp only [List.length_cons]
        omega
    · rw [if_neg hc] at h
      by_cases hn : c = '\n'
      · rw [if_pos hn] at h; exact absurd h (by simp)
      · rw [if_neg hn] at h
        cases hf : findClose rest with
        | none => rw [hf] at h; exact absurd h (by simp)
        | some p =>
          rw [hf, Option.map_some'] at h
          have h2 : p.2 = after := congrArg Prod.snd (Option.some.inj h)
          subst h2
          have := ih hf
          simp only [List.length_cons]
          omega

theorem findBracket_length {cs : List Char} :
    ∀ {t : List Char × List Char × List Char},
    findBracket cs = some t → t.2.2.length + 2 ≤ cs.length := by
  induction cs with
  | nil => intro t h; simp [findBracket] at h
  | cons c rest ih =>
    intro t h
    rw [findBracket] at h
    by_cases hc : c = '\x7b' ∧ rest.head? = some '\x7b'
    · rw [if_pos hc] at h
      cases hf : findClose rest.tail with
      | some p =>
        rw [hf] at h
        have h2 := (Option.some.inj h).symm
        subst h2
        have := @findClose_length rest.tail p.1 p.2 (by rw [hf])
        have ht : rest.tail.length ≤ rest.length := by
          cases rest <;> simp
        simp only [List.length_cons]
        omega
      | none =>
        rw [hf] at h
        cases hb : findBracket rest with
        | none => rw [hb] at h; exact absurd h (by simp)
        | some t2 =>
          rw [hb, Option.map_some'] at h
          have h2 := (Option.some.inj h).symm
          subst h2
          have := ih hb
          simp only [List.length_cons] at *
          omega
    · rw [if_neg hc] at h
      cases hb : findBracket rest with
      | none => rw [hb] at h; exact absurd h (by simp)
      | some t2 =>
        rw [hb, Option.map_some'] at h
        have h2 := (Option.some.inj h).symm
        subst h2
        have := ih hb
        simp only [List.length_cons] at *
        omega

theorem bracketSplit_of_none {cs : List Char} (h : findBracket cs = none) :
    bracketSplit cs = [cs] := by
  unfold bracketSplit
  cases hn : cs.length with
  | zero => rfl
  | succ n => simp [bracketSplitF, h]

theorem subScanF_nil (so : List (String × String)) (n : Nat) :
    subScanF so n [] = [] := by
  cases n <;> rfl

theorem subScanF_congr (so : List (String × String)) :
    ∀ (n : Nat) (cs : List Char) (m : Nat), cs.length ≤ n → cs.length ≤ m →
    subScanF so n cs = subScanF so m cs := by
  intro n
  induction n with
  | zero =>
    intro cs m hn _
    rw [List.length_eq_zero.mp (Nat.le_zero.mp hn)]
    rw [subScanF_nil, subScanF_nil]
  | succ n ih =>
    intro cs m hn hm
    cases cs with
    | nil => rw [subScanF_nil, subScanF_nil]
    | cons c rest =>
      cases m with
      | zero => simp at hm
      | succ m =>
        rw [subScanF, subScanF]
        simp only [List.length_cons] at hn hm
        by_cases hc : c = '%'
        · rw [if_pos hc, if_pos hc]
          by_cases hh : rest.head? = some '%'
          · rw [if_pos hh, if_pos hh,
              ih rest.tail m (by simp only [List.length_tail]; omega)
                (by simp only [List.length_tail]; omega)]
          · rw [if_neg hh, if_neg hh]
            by_cases he : (rest.takeWhile isTokenChar).isEmpty = true
            · simp only [he, if_true]
              rw [ih rest m (by omega) (by omega)]
            · simp only [he, Bool.false_eq_true, if_false]
              rw [ih (rest.drop (rest.takeWhile isTokenChar).length) m
                (by simp only [List.length_drop]; omega)
                (by simp only [List.length_drop]; omega)]
        · rw [if_neg hc, if_neg hc, ih rest m (by omega) (by omega)]

/-- The one-step equation of `subScan`. -/
theorem subScan_cons (so : List (String × String)) (c : Char) (rest : List Char) :
    subScan so (c :: rest) =
      (if c = '%' then
        if rest.head? = some '%' then
          subber so ['%'] ++ subScan so rest.tail
        else
          let tok := rest.takeWhile isTokenChar
          if tok.isEmpty then '%' :: subScan so rest
          else subber so tok ++ subScan so (rest.drop tok.length)
      else c :: subScan so rest) := by
  show subScanF so (rest.length + 1) (c :: rest) = _
  rw [subScanF]
  by_cases hc : c = '%'
  · rw [if_pos hc, if_pos hc]
    by_cases hh : rest.head? = some '%'
    · rw [if_pos hh, if_pos hh]
      rw [subScanF_congr so rest.length rest.tail rest.tail.length
        (by simp only [List.length_tail]; omega) (by omega)]
      rfl
    · rw [if_neg hh, if_neg hh]
      by_cases he : (rest.takeWhile isTokenChar).isEmpty = true
      · simp only [he, if_true]
        rfl
      · simp only [he, if_false]
        rw [subScanF_congr so rest.length (rest.drop (rest.takeWhile isTokenChar).length)
          (rest.drop (rest.takeWhile isTokenChar).length).length
          (by simp only [List.length_drop]; omega) (by omega)]
        rfl
  · rw [if_neg hc, if_neg hc]
    rfl

theorem head?_append_singleton {α : Type} (l : List α) (x : α) :
    (l ++ [x]).head? = (l.head? <|> some x) := by
  cases l <;> rfl

theorem checkLoop_outcome (lineq : List CLine) :
    ∀ (checkq : List CheckCmd) (mism : List (CLine × CheckCmd)),
    checkOutcome (checkLoop lineq checkq mism) = specCheck lineq checkq mism.head? := by
  induction lineq with
  | nil =>
    intro checkq mism
    cases checkq <;> cases mism <;> rfl
  | cons line lrest ih =>
    intro checkq mism
    cases checkq with
    | nil => cases mism <;> rfl
    | cons check crest =>
      rw [checkLoop, specCheck]
      by_cases hacc : checkAccepts check line = true
      · rw [if_pos hacc, if_pos hacc, ih]
      · rw [if_neg hacc, if_neg hacc]
        by_cases hblank : line.isEmptySpace = true
        · rw [if_pos hblank, if_pos hblank, ih]
        · rw [if_neg hblank, if_neg hblank, ih, head?_append_singleton]

theorem dropWhile_blank_append (blanks v : List CLine)
    (hb : ∀ l ∈ blanks, l.isEmptySpace = true) :
    (blanks ++ v).dropWhile CLine.isEmptySpace = v.dropWhile CLine.isEmptySpace := by
  induction blanks with
  | nil => rfl
  | cons b bs ih =>
    rw [List.cons_append, List.dropWhile_cons, if_pos (hb b (by simp))]
    exact ih (fun l hl => hb l (by simp [hl]))

theorem dropWhile_head?_mid_blanks (blanks : List CLine)
    (hb : ∀ l ∈ blanks, l.isEmptySpace = true) :
    ∀ (u v : List CLine),
    ((u ++ (blanks ++ v)).dropWhile CLine.isEmptySpace).head? =
      ((u ++ v).dropWhile CLine.isEmptySpace).head? := by
  intro u
  induction u with
  | nil =>
    intro v
    rw [List.nil_append, List.nil_append, dropWhile_blank_append blanks v hb]
  | cons a u' ih =>
    intro v
    rw [List.cons_append, List.cons_append, List.dropWhile_cons, List.dropWhile_cons]
    by_cases ha : a.isEmptySpace = true
    · rw [if_pos ha, if_pos ha]
      exact ih v
    · rw [if_neg ha, if_neg ha]
      rfl

/-- Skipping a run of blank lines none of the remaining checks accepts
leaves the outcome unchanged. -/
theorem checkLoop_blank_prefix :
    ∀ (blanks : List CLine), (∀ l ∈ blanks, l.isEmptySpace = true) →
    ∀ (ys : List CLine) (cq : List CheckCmd) (mism : List (CLine × CheckCmd)),
    (∀ c ∈ cq, ∀ l ∈ blanks, checkAccepts c l = false) →
    checkOutcome (checkLoop (blanks ++ ys) cq mism) =
      checkOutcome (checkLoop ys cq mism) := by
  intro blanks
  induction blanks with
  | nil => intro _ ys cq mism _; rfl
  | cons b bs ih =>
    intro hb ys cq mism hno
    cases cq with
    | nil =>
      show checkOutcome (b :: (bs ++ ys), [], mism) = checkOutcome (checkLoop ys [] mism)
      have hy : checkLoop ys [] mism = (ys, [], mism) := by cases ys <;> rfl
      rw [hy]
      unfold checkOutcome
      cases mism with
      | cons p ps => rfl
      | nil =>
        simp only
        rw [List.dropWhile_cons, if_pos (hb b (by simp)),
            dropWhile_blank_append bs ys (fun l hl => hb l (by simp [hl]))]
    | cons c crest =>
      rw [List.cons_append, checkLoop]
      have hacc : checkAccepts c b = false := hno c (by simp) b (by simp)
      rw [if_neg (by simp [hacc]), if_pos (hb b (by simp))]
      exact ih (fun l hl => hb l (by simp [hl])) ys (c :: crest) mism
        (fun c' hc' l hl => hno c' hc' l (by simp [hl]))

/-- Inserting a run of blank lines no remaining check accepts, anywhere in
the line queue, leaves the outcome unchanged. -/
theorem checkLoop_insert_blanks (blanks : List CLine)
    (hb : ∀ l ∈ blanks, l.isEmptySpace = true) :
    ∀ (xs ys : List CLine) (cq : List CheckCmd) (mism : List (CLine × CheckCmd)),
    (∀ c ∈ cq, ∀ l ∈ blanks, checkAccepts c l = false) →
    checkOutcome (checkLoop (xs ++ (blanks ++ ys)) cq mism) =
      checkOutcome (checkLoop (xs ++ ys) cq mism) := by
  intro xs
  induction xs with
  | nil =>
    intro ys cq mism hno
    rw [List.nil_append, List.nil_append]
    exact checkLoop_blank_prefix blanks hb ys cq mism hno
  | cons a xs' ih =>
    intro ys cq mism hno
    cases cq with
    | nil =>
      show checkOutcome (a :: (xs' ++ (blanks ++ ys)), [], mism) =
        checkOutcome (a :: (xs' ++ ys), [], mism)
      have hh : ((a :: (xs' ++ (blanks ++ ys))).dropWhile CLine.isEmptySpace).head? =
          ((a :: (xs' ++ ys)).dropWhile CLine.isEmptySpace).head? := by
        rw [List.dropWhile_cons, List.dropWhile_cons]
        by_cases ha : a.isEmptySpace = true
        · rw [if_pos ha, if_pos ha]
          exact dropWhile_head?_mid_blanks blanks hb xs' ys
        · rw [if_neg ha, if_neg ha]
          rfl
      simp only [checkOutcome, hh]
    | cons c crest =>
      rw [List.cons_append, List.cons_append, checkLoop, checkLoop]
      by_cases hacc : checkAccepts c a = true
      · rw [if_pos hacc, if_pos hacc]
        exact ih ys crest mism (fun c' hc' => hno c' (by simp [hc']))
      · rw [if_neg hacc, if_neg hacc]
        by_cases hblank : a.isEmptySpace = true
        · rw [if_pos hblank, if_pos hblank]
          exact ih ys (c :: crest) mism hno
        · rw [if_neg hblank, if_neg hblank]
          exact ih ys crest (mism ++ [(a, c)]) (fun c' hc' => hno c' (by simp [hc']))

/-- The sort `perform_substitution` applies to its substitutions. -/
theorem performSubstitution_eq (input : String) (subs : List (String × String)) :
    performSubstitution input subs =
      String.mk (subScan (sortByKeyLenDesc subs) input.data) := rfl

theorem cleanBoundary_tail {c : Char} {pre' : List Char}
    (h : cleanBoundary (c :: pre') = true) : cleanBoundary pre' = true := by
  cases pre' with
  | nil => rfl
  | cons d pre'' =>
    unfold cleanBoundary at *
    rwa [List.getLast?_cons_cons] at h

theorem getLast?_drop_of_ne_nil {l : List Char} {k : Nat} (h : l.drop k ≠ []) :
    (l.drop k).getLast? = l.getLast? := by
  conv_rhs => rw [← List.take_append_drop k l]
  rw [List.getLast?_append_of_ne_nil _ h]

theorem take_while_token_of_head {post : List Char}
    (hpost : ∀ c, post.head? = some c → isTokenChar c = false) :
    post.takeWhile isTokenChar = [] := by
  cases post with
  | nil => rfl
  | cons p0 ps =>
    rw [List.takeWhile_cons, if_neg (by simp [hpost p0 rfl])]

/-- Scanning at a token site: a `%`, a maximal nonempty identifier run, and
whatever follows. -/
theorem subScan_token_site (so : List (String × String)) (tok post : List Char)
    (htne : tok ≠ []) (hta : tok.all isTokenChar = true)
    (hpost : ∀ c, post.head? = some c → isTokenChar c = false) :
    subScan so ('%' :: (tok ++ post)) = subber so tok ++ subScan so post := by
  cases tok with
  | nil => exact absurd rfl htne
  | cons t0 tok' =>
    have ht0 : isTokenChar t0 = true := by
      rw [List.all_cons, Bool.and_eq_true] at hta
      exact hta.1
    have hpct : isTokenChar '%' = false := by decide
    have ht0p : t0 ≠ '%' := by
      intro he
      rw [he, hpct] at ht0
      exact Bool.false_ne_true ht0
    rw [subScan_cons, if_pos rfl]
    rw [List.cons_append]
    rw [if_neg (by simp [ht0p])]
    have htwtok : (t0 :: tok').takeWhile isTokenChar = t0 :: tok' :=
      List.takeWhile_eq_self_iff.mpr (by rw [List.all_eq_true] at hta; exact hta)
    have htw : ((t0 :: tok') ++ post).takeWhile isTokenChar = t0 :: tok' := by
      rw [List.takeWhile_append, htwtok, if_pos rfl, take_while_token_of_head hpost,
        List.append_nil]
    rw [List.cons_append] at htw
    simp only [htw, List.isEmpty_cons, List.head?_cons, List.tail_cons]
    rw [if_neg (by simp)]
    have hdrop : (t0 :: (tok' ++ post)).drop (t0 :: tok').length = post := by
      rw [← List.cons_append, List.drop_left]
    rw [hdrop]

/-- A scan distributes over a clean boundary: no token of `pre ++ x` spans
the boundary, so the two sides are substituted independently. -/
theorem subScan_append (so : List (String × String)) :
    ∀ (n : Nat) (pre x : List Char), pre.length ≤ n → cleanBoundary pre = true →
    subScan so (pre ++ x) = subScan so pre ++ subScan so x := by
  intro n
  induction n with
  | zero =>
    intro pre x hlen _
    rw [List.length_eq_zero.mp (Nat.le_zero.mp hlen)]
    rw [List.nil_append, show subScan so [] = [] from rfl, List.nil_append]
  | succ n ihn =>
    intro pre x hlen hb
    cases pre with
    | nil =>
      rw [List.nil_append, show subScan so [] = [] from rfl, List.nil_append]
    | cons c pre' =>
      rw [List.cons_append, subScan_cons, subScan_cons]
      by_cases hc : c = '%'
      · subst hc
        rw [if_pos rfl, if_pos rfl]
        cases pre' with
        | nil =>
          exfalso
          unfold cleanBoundary at hb
          simp [isTokenChar] at hb
        | cons d pre'' =>
          simp only [List.cons_append, List.head?_cons, List.tail_cons]
          by_cases hd : d = '%'
          · subst hd
            rw [if_pos (show (some '%' : Option Char) = some '%' from rfl),
              if_pos (show (some '%' : Option Char) = some '%' from rfl)]
            rw [ihn pre'' x (by simp only [List.length_cons] at hlen ⊢; omega)
              (cleanBoundary_tail (cleanBoundary_tail hb))]
            rw [List.append_assoc]
          · rw [if_neg (show ¬((some d : Option Char) = some '%') by simp [hd]),
              if_neg (show ¬((some d : Option Char) = some '%') by simp [hd])]
            by_cases ht : isTokenChar d = true
            · have hnall : ¬((d :: pre'').all isTokenChar = true) := by
                intro hall
                obtain ⟨e, he⟩ : ∃ e, (d :: pre'').getLast? = some e :=
                  Option.isSome_iff_exists.mp (List.getLast?_isSome.mpr (by simp))
                have hemem : e ∈ d :: pre'' := List.mem_of_mem_getLast? he
                have hetok : isTokenChar e = true :=
                  List.all_eq_true.mp hall e hemem
                unfold cleanBoundary at hb
                rw [List.getLast?_cons_cons, he] at hb
                simp [hetok] at hb
              have hnself : (d :: pre'').takeWhile isTokenChar ≠ d :: pre'' := by
                intro hself
                exact hnall (by
                  rw [List.all_eq_true]
                  exact List.takeWhile_eq_self_iff.mp hself)
              have hlt : ((d :: pre'').takeWhile isTokenChar).length < (d :: pre'').length := by
                have hpre : (d :: pre'').takeWhile isTokenChar <+: d :: pre'' :=
                  List.takeWhile_prefix _
                have hle := List.IsPrefix.length_le hpre
                rcases Nat.lt_or_ge ((d :: pre'').takeWhile isTokenChar).length
                    (d :: pre'').length with h | h
                · exact h
                · exact absurd (List.IsPrefix.eq_of_length hpre
                    (Nat.le_antisymm hle h)) hnself
              have htw : ((d :: pre'') ++ x).takeWhile isTokenChar =
                  (d :: pre'').takeWhile isTokenChar := by
                rw [List.takeWhile_append, if_neg (by omega)]
              have hdr : ((d :: pre'') ++ x).drop
                  (((d :: pre'').takeWhile isTokenChar).length) =
                  (d :: pre'').drop (((d :: pre'').takeWhile isTokenChar).length) ++ x :=
                List.drop_append_of_le_length (by omega)
              rw [List.cons_append] at htw hdr
              simp only [htw, hdr]
              have htok0 : (d :: pre'').takeWhile isTokenChar =
                  d :: pre''.takeWhile isTokenChar := by
                rw [List.takeWhile_cons, if_pos ht]
              rw [htok0]
              simp only [List.isEmpty_cons]
              have hrem : (d :: pre'').drop ((d :: pre''.takeWhile isTokenChar).length) ≠ [] := by
                rw [← htok0]
                intro hnil
                rw [List.drop_eq_nil_iff_le] at hnil
                omega
              have hbrem : cleanBoundary
                  ((d :: pre'').drop ((d :: pre''.takeWhile isTokenChar).length)) = true := by
                unfold cleanBoundary
                rw [getLast?_drop_of_ne_nil (htok0 ▸ hrem)]
                unfold cleanBoundary at hb
                rwa [List.getLast?_cons_cons] at hb
              rw [ihn ((d :: pre'').drop ((d :: pre''.takeWhile isTokenChar).length)) x
                (by
                  rw [List.length_drop]
                  simp only [List.length_cons] at hlen ⊢
                  omega) hbrem]
              rw [if_neg (show ¬(false = true) by simp),
                if_neg (show ¬(false = true) by simp), List.append_assoc]
            · have htw : ((d :: pre'') ++ x).takeWhile isTokenChar = [] := by
                rw [List.cons_append, List.takeWhile_cons, if_neg (by simp [ht])]
              have htw' : (d :: pre'').takeWhile isTokenChar = [] := by
                rw [List.takeWhile_cons, if_neg (by simp [ht])]
              rw [List.cons_append] at htw
              simp only [htw, htw', List.isEmpty_nil, if_true]
              have hih := ihn (d :: pre'') x
                (by simp only [List.length_cons] at hlen ⊢; omega) (cleanBoundary_tail hb)
              rw [List.cons_append] at hih
              rw [hih]
              rfl
      · rw [if_neg hc, if_neg hc]
        rw [ihn pre' x (by simp only [List.length_cons] at hlen; omega)
          (cleanBoundary_tail hb)]
        rfl

theorem subber_of_no_key (so : List (String × String)) (tok : List Char)
    (h : ∀ kv ∈ so, kv.1.data.isPrefixOf tok = false) :
    subber so tok = tok := by
  unfold subber
  rw [List.find?_eq_none.mpr (fun kv hkv => by simp [h kv hkv])]

theorem prefix_eq_of_length_eq {u v w : List Char} (hu : u <+: w) (hv : v <+: w)
    (h : u.length = v.length) : u = v := by
  rw [List.prefix_iff_eq_take.mp hu, List.prefix_iff_eq_take.mp hv, h]

/-- On a list ordered by descending key length, the first key that is a
prefix of the token is its unique longest prefix key. -/
theorem subber_longest (tok : List Char) (k v : String) :
    ∀ (so : List (String × String)),
    so.Pairwise (fun a b => b.1.length ≤ a.1.length) →
    (so.map Prod.fst).Nodup →
    (k, v) ∈ so →
    k.data.isPrefixOf tok = true →
    (∀ kv ∈ so, kv.1.data.isPrefixOf tok = true → kv.1.length ≤ k.length) →
    subber so tok = v.data ++ tok.drop k.length := by
  intro so
  induction so with
  | nil => intro _ _ hmem _ _; simp at hmem
  | cons kv0 rest ih =>
    intro hsorted hnodup hmem hpref hlong
    by_cases h0 : kv0.1.data.isPrefixOf tok = true
    · have hk : kv0.1 = k := by
        rcases List.mem_cons.mp hmem with heq | hrest
        · rw [← heq]
        · have h1 : kv0.1.length ≤ k.length := hlong kv0 (by simp) h0
          have h2 : k.length ≤ kv0.1.length := by
            have := (List.pairwise_cons.mp hsorted).1 (k, v) hrest
            simpa using this
          have hdl : kv0.1.data.length = k.data.length := by
            have e1 : kv0.1.length = kv0.1.data.length := rfl
            have e2 : k.length = k.data.length := rfl
            omega
          exact String.ext (prefix_eq_of_length_eq
            (List.isPrefixOf_iff_prefix.mp h0) (List.isPrefixOf_iff_prefix.mp hpref) hdl)
      have hv : kv0.2 = v := by
        rcases List.mem_cons.mp hmem with heq | hrest
        · rw [← heq]
        · exfalso
          have hmap : k ∈ rest.map Prod.fst := List.mem_map_of_mem Prod.fst hrest
          rw [List.map_cons, List.nodup_cons] at hnodup
          rw [hk] at hnodup
          exact hnodup.1 hmap
      unfold subber
      rw [List.find?_cons_of_pos rest h0, ← hk, ← hv]
    · have hne : kv0 ≠ (k, v) := by
        intro he
        rw [he] at h0
        exact h0 hpref
      have hrest : (k, v) ∈ rest := by
        rcases List.mem_cons.mp hmem with heq | hr
        · exact absurd heq.symm hne
        · exact hr
      have := ih (List.Pairwise.of_cons hsorted)
        (by rw [List.map_cons, List.nodup_cons] at hnodup; exact hnodup.2)
        hrest hpref (fun kv hkv hp => hlong kv (by simp [hkv]) hp)
      unfold subber at this ⊢
      rw [List.find?_cons_of_neg rest (by simp [h0])]
      exact this

theorem insertDesc_perm (x : String × String) (l : List (String × String)) :
    (insertDesc x l).Perm (x :: l) := by
  induction l with
  | nil => exact List.Perm.refl _
  | cons y ys ih =>
    rw [insertDesc]
    by_cases h : y.1.length ≤ x.1.length
    · rw [if_pos h]
    · rw [if_neg h]
      exact (ih.cons y).trans (List.Perm.swap x y ys)

theorem insertDesc_sorted (x : String × String) (l : List (String × String))
    (hl : l.Pairwise (fun a b => b.1.length ≤ a.1.length)) :
    (insertDesc x l).Pairwise (fun a b => b.1.length ≤ a.1.length) := by
  induction l with
  | nil => simp [insertDesc]
  | cons y ys ih =>
    rw [insertDesc]
    rw [List.pairwise_cons] at hl
    by_cases h : y.1.length ≤ x.1.length
    · rw [if_pos h, List.pairwise_cons]
      constructor
      · intro z hz
        rcases List.mem_cons.mp hz with rfl | hz'
        · exact h
        · exact le_trans (hl.1 z hz') h
      · exact List.pairwise_cons.mpr hl
    · rw [if_neg h, List.pairwise_cons]
      refine ⟨?_, ih hl.2⟩
      intro z hz
      have hzm := (insertDesc_perm x ys).mem_iff.mp hz
      rcases List.mem_cons.mp hzm with rfl | hz'
      · omega
      · exact hl.1 z hz'

/-- The sorted list is a permutation of the substitutions, ordered by
descending key length. -/
theorem sortByKeyLenDesc_facts (subs : List (String × String)) :
    (sortByKeyLenDesc subs).Perm subs ∧
      (sortByKeyLenDesc subs).Pairwise (fun a b => b.1.length ≤ a.1.length) := by
  induction subs with
  | nil => exact ⟨List.Perm.refl _, List.Pairwise.nil⟩
  | cons x xs ih =>
    exact ⟨(insertDesc_perm x _).trans (ih.1.cons x),
      insertDesc_sorted x _ ih.2⟩

theorem pushLits_spec : ∀ (p : List Char) (g : Bool) (al atoms : List RE) (q : Nat),
    pushLits ⟨g, al, atoms, q⟩ p =
      ⟨g, al, (p.reverse.map RE.chr) ++ atoms, if p.isEmpty then q else 0⟩ := by
  intro p
  induction p with
  | nil => intro g al atoms q; rfl
  | cons c p ih =>
    intro g al atoms q
    show pushLits ⟨g, al, RE.chr c :: atoms, 0⟩ p = _
    rw [ih]
    simp only [List.reverse_cons, List.map_append, List.map_cons, List.map_nil,
      List.append_assoc, List.singleton_append, List.isEmpty_cons, ite_self,
      Bool.false_eq_true, if_false]

theorem foldlM_escaped_lits : ∀ (p : List Char) (f : PFrame) (fs : List PFrame)
    (names : List String),
    (reEscape p).foldlM stepChar ⟨f :: fs, names, .normal⟩ =
      some ⟨pushLits f p :: fs, names, .normal⟩ := by
  intro p
  induction p with
  | nil => intro f fs names; rfl
  | cons c p ih =>
    intro f fs names
    show ((if c ∈ reSpecial then ['\\', c] else [c]) ++ reEscape p).foldlM
      stepChar ⟨f :: fs, names, .normal⟩ = _
    by_cases hmem : c ∈ reSpecial
    · rw [if_pos hmem]
      have hs : c ≠ 's' := fun he => absurd (he ▸ hmem) (by decide)
      have hd : c ≠ 'd' := fun he => absurd (he ▸ hmem) (by decide)
      have hw : c ≠ 'w' := fun he => absurd (he ▸ hmem) (by decide)
      have hn : c ≠ 'n' := fun he => absurd (he ▸ hmem) (by decide)
      have ht : c ≠ 't' := fun he => absurd (he ▸ hmem) (by decide)
      have hr : c ≠ 'r' := fun he => absurd (he ▸ hmem) (by decide)
      have ha : c.isAlphanum = false := by
        have hall : ∀ x ∈ reSpecial, x.isAlphanum = false := by decide
        exact hall c hmem
      have hc : stepChar ⟨f :: fs, names, .esc⟩ c =
          some ⟨f.pushAtom (.chr c) :: fs, names, .normal⟩ := by
        show (if c = 's' then _ else _) = _
        rw [if_neg hs, if_neg hd, if_neg hw, if_neg hn, if_neg ht, if_neg hr]
        rw [if_neg (by simp [ha])]
        rfl
      rw [List.cons_append, List.cons_append, List.foldlM_cons]
      rw [show stepChar ⟨f :: fs, names, .normal⟩ '\\' =
        some ⟨f :: fs, names, .esc⟩ from rfl]
      show (c :: reEscape p).foldlM stepChar ⟨f :: fs, names, .esc⟩ = _
      rw [List.foldlM_cons, hc]
      show (reEscape p).foldlM stepChar ⟨f.pushAtom (.chr c) :: fs, names, .normal⟩ = _
      rw [ih]
      rfl
    · rw [if_neg hmem]
      have h1 : c ≠ '\\' := fun he => hmem (he ▸ (by decide : '\\' ∈ reSpecial))
      have h2 : c ≠ '(' := fun he => hmem (he ▸ (by decide : '(' ∈ reSpecial))
      have h3 : c ≠ ')' := fun he => hmem (he ▸ (by decide : ')' ∈ reSpecial))
      have h4 : c ≠ '|' := fun he => hmem (he ▸ (by decide : '|' ∈ reSpecial))
      have h5 : c ≠ '[' := fun he => hmem (he ▸ (by decide : '[' ∈ reSpecial))
      have h6 : c ≠ '.' := fun he => hmem (he ▸ (by decide : '.' ∈ reSpecial))
      have h7 : c ≠ '^' := fun he => hmem (he ▸ (by decide : '^' ∈ reSpecial))
      have h8 : c ≠ '$' := fun he => hmem (he ▸ (by decide : '$' ∈ reSpecial))
      have h9 : c ≠ '*' := fun he => hmem (he ▸ (by decide : '*' ∈ reSpecial))
      have h10 : c ≠ '+' := fun he => hmem (he ▸ (by decide : '+' ∈ reSpecial))
      have h11 : c ≠ '?' := fun he => hmem (he ▸ (by decide : '?' ∈ reSpecial))
      have hc : stepChar ⟨f :: fs, names, .normal⟩ c =
          some ⟨f.pushAtom (.chr c) :: fs, names, .normal⟩ := by
        show stepNormal ⟨f :: fs, names, .normal⟩ c = _
        unfold stepNormal
        rw [if_neg h1, if_neg h2, if_neg h3, if_neg h4, if_neg h5, if_neg h6,
          if_neg (by rintro (h | h); exact h7 h; exact h8 h),
          if_neg (by rintro (h | h | h); exact h9 h; exact h10 h; exact h11 h)]
        rfl
      rw [List.cons_append, List.foldlM_cons, hc]
      show (reEscape p).foldlM stepChar ⟨f.pushAtom (.chr c) :: fs, names, .normal⟩ = _
      rw [ih]
      rfl

theorem reParse_litMid (p : List Char) :
    reParse (litMid p) = some (litCompiled p) := by
  unfold reParse litMid
  rw [show (('\\' :: 's' :: '*' :: '(' :: '?' :: ':' ::
      (reEscape p ++ (')' :: '\\' :: 's' :: '*' :: '\\' :: 'n' :: '?' :: []))).foldlM
        stepChar initPState) =
    ((reEscape p ++ (')' :: '\\' :: 's' :: '*' :: '\\' :: 'n' :: '?' :: [])).foldlM
      stepChar ⟨[⟨true, [], [], 0⟩,
        ⟨false, [], [.star (.cls false wsItems)], 1⟩], [], .normal⟩) from rfl]
  rw [List.foldlM_append, foldlM_escaped_lits]
  rw [pushLits_spec, ite_self, List.append_nil]
  show ((some ⟨[⟨true, [], p.reverse.map RE.chr, 0⟩,
      ⟨false, [], [.star (.cls false wsItems)], 1⟩], [], .normal⟩ >>=
    fun st => (')' :: '\\' :: 's' :: '*' :: '\\' :: 'n' :: '?' ::
      ([] : List Char)).foldlM stepChar st) >>= finishParse) = _
  have hfin : (((some (⟨[⟨true, [], p.reverse.map RE.chr, 0⟩,
      ⟨false, [], [.star (.cls false wsItems)], 1⟩], [], .normal⟩ : PState) >>=
    fun st => (')' :: '\\' :: 's' :: '*' :: '\\' :: 'n' :: '?' ::
      ([] : List Char)).foldlM stepChar st) >>= finishParse)) =
      some (RE.cat (.cat (.cat (.cat .eps (.star (.cls false wsItems)))
        (seqOf (p.reverse.map RE.chr))) (.star (.cls false wsItems)))
        (.alt (.chr '\n') .eps)) := rfl
  rw [hfin]
  have hseq : seqOf (p.reverse.map RE.chr) = litSeq p := by
    unfold seqOf litSeq
    rw [List.map_reverse, List.reverse_reverse, List.foldl_map]
  rw [hseq]
  rfl

theorem reCompileAnchored_lit (p : List Char) :
    reCompileAnchored ('^' :: '\\' :: 's' :: '*' :: '(' :: '?' :: ':' ::
      (reEscape p ++ (')' :: '\\' :: 's' :: '*' :: '\\' :: 'n' :: '?' :: '$' :: []))) =
      some (litCompiled p) := by
  have harg : ('\\' :: 's' :: '*' :: '(' :: '?' :: ':' ::
      (reEscape p ++ (')' :: '\\' :: 's' :: '*' :: '\\' :: 'n' :: '?' :: '$' :: []))) =
      litMid p ++ ['$'] := by
    simp [litMid]
  show (if ('\\' :: 's' :: '*' :: '(' :: '?' :: ':' ::
      (reEscape p ++ (')' :: '\\' :: 's' :: '*' :: '\\' :: 'n' :: '?' :: '$' :: []))).getLast?
        = some '$'
    then reParse ('\\' :: 's' :: '*' :: '(' :: '?' :: ':' ::
      (reEscape p ++ (')' :: '\\' :: 's' :: '*' :: '\\' :: 'n' :: '?' :: '$' :: []))).dropLast
    else none) = _
  rw [harg, List.getLast?_concat, if_pos rfl, List.dropLast_concat, reParse_litMid]

/-- For a payload with no brace region, `CheckCmd.parse` compiles to the
literal anchored pattern. -/
theorem checkCmdParse_lit (l : CLine) (ctype : String)
    (h : findBracket l.text.data = none) :
    CheckCmd.parse l ctype = .ok ⟨l, ctype, litCompiled l.text.data⟩ := by
  unfold CheckCmd.parse
  rw [bracketSplit_of_none h]
  show (match reCompileAnchored (('^' :: '\\' :: 's' :: '*' :: []) ++
      (('(' :: '?' :: ':' :: (reEscape l.text.data ++ [')'])) :: []).flatten ++
      ('\\' :: 's' :: '*' :: '\\' :: 'n' :: '?' :: '$' :: [])) with
    | some r => Except.ok (⟨l, ctype, r⟩ : CheckCmd)
    | none => Except.error (CheckerErr.reErr l)) = _
  have harg : (('^' :: '\\' :: 's' :: '*' :: []) ++
      (('(' :: '?' :: ':' :: (reEscape l.text.data ++ [')'])) :: []).flatten ++
      ('\\' :: 's' :: '*' :: '\\' :: 'n' :: '?' :: '$' :: [])) =
      ('^' :: '\\' :: 's' :: '*' :: '(' :: '?' :: ':' ::
        (reEscape l.text.data ++
          (')' :: '\\' :: 's' :: '*' :: '\\' :: 'n' :: '?' :: '$' :: []))) := by
    simp
  rw [harg, reCompileAnchored_lit]

theorem rmatch_litCompiled_iff (p s : List Char) :
    rmatch (litCompiled p) s = true ↔
      ∃ w1 w2, w1.all isPySpace = true ∧ w2.all isPySpace = true ∧
        s = w1 ++ p ++ w2 := by
  unfold litCompiled
  constructor
  · intro h
    obtain ⟨t1234, s5, rfl, h1234, h5⟩ := (rmatch_cat_iff _ _ _).mp h
    obtain ⟨t123, s4, rfl, h123, h4⟩ := (rmatch_cat_iff _ _ _).mp h1234
    obtain ⟨t12, s3, rfl, h12, h3⟩ := (rmatch_cat_iff _ _ _).mp h123
    obtain ⟨t1, s2, rfl, h1, h2⟩ := (rmatch_cat_iff _ _ _).mp h12
    rw [rmatch_eps_iff] at h1
    subst h1
    rw [rmatch_star_ws_iff] at h2 h4
    rw [rmatch_litSeq_iff] at h3
    subst h3
    have h5ws : s5.all isPySpace = true := by
      rcases (rmatch_alt_iff _ _ _).mp h5 with h5a | h5b
      · rw [rmatch_chr_iff] at h5a
        subst h5a
        decide
      · rw [rmatch_eps_iff] at h5b
        subst h5b
        decide
    refine ⟨s2, s4 ++ s5, h2, ?_, by simp [List.append_assoc]⟩
    rw [List.all_append, h4, h5ws]
    rfl
  · rintro ⟨w1, w2, hw1, hw2, rfl⟩
    apply (rmatch_cat_iff _ _ _).mpr
    refine ⟨w1 ++ p ++ w2, [], by simp, ?_, by decide⟩
    apply (rmatch_cat_iff _ _ _).mpr
    refine ⟨w1 ++ p, w2, rfl, ?_, (rmatch_star_ws_iff _).mpr hw2⟩
    apply (rmatch_cat_iff _ _ _).mpr
    refine ⟨w1, p, rfl, ?_, (rmatch_litSeq_iff _ _).mpr rfl⟩
    apply (rmatch_cat_iff _ _ _).mpr
    exact ⟨[], w1, rfl, by decide, (rmatch_star_ws_iff _).mpr hw1⟩

theorem pyMatchAnchored_litCompiled_iff (p L : List Char) :
    pyMatchAnchored (litCompiled p) L = true ↔
      ∃ w1 w2, w1.all isPySpace = true ∧ w2.all isPySpace = true ∧
        L = w1 ++ p ++ w2 := by
  unfold pyMatchAnchored
  rw [Bool.or_eq_true, Bool.and_eq_true]
  constructor
  · rintro (h | ⟨hl, h⟩)
    · exact (rmatch_litCompiled_iff p L).mp h
    · obtain ⟨w1, w2, hw1, hw2, hd⟩ := (rmatch_litCompiled_iff p L.dropLast).mp h
      rw [decide_eq_true_eq] at hl
      refine ⟨w1, w2 ++ ['\n'], hw1, ?_, ?_⟩
      · rw [List.all_append, hw2]
        rfl
      · have hL : L.dropLast ++ ['\n'] = L := by
          obtain ⟨M, c, rfl⟩ : ∃ M c, L = M ++ [c] := by
            rcases List.eq_nil_or_concat L with hnil | ⟨M, c, hmc⟩
            · rw [hnil] at hl; simp at hl
            · exact ⟨M, c, by rw [hmc, List.concat_eq_append]⟩
          rw [List.getLast?_concat] at hl
          rw [List.dropLast_concat]
          rw [Option.some.inj hl]
        rw [← hL, hd, List.append_assoc]
  · rintro ⟨w1, w2, hw1, hw2, rfl⟩
    left
    exact (rmatch_litCompiled_iff _ _).mpr ⟨w1, w2, hw1, hw2, rfl⟩

theorem tryPayloadAt_has_newline {cs : List Char} {j : Nat} {cap : List Char}
    (h : tryPayloadAt cs j = some cap) : '\n' ∈ cs := by
  simp only [tryPayloadAt] at h
  split at h
  case isTrue hh =>
    exact List.mem_of_mem_drop (List.mem_of_mem_drop (List.mem_of_mem_head? hh))
  case isFalse => exact absurd h (by simp)

theorem matchPayload_has_newline {cs cap : List Char}
    (h : matchPayload cs = some cap) : '\n' ∈ cs := by
  simp only [matchPayload] at h
  split at h
  case isTrue => exact absurd h (by simp)
  case isFalse =>
    obtain ⟨j, -, hj⟩ := List.exists_of_findSome?_eq_some h
    exact tryPayloadAt_has_newline hj

theorem matchAfterHash_has_newline {key cs cap : List Char}
    (h : matchAfterHash key cs = some cap) : '\n' ∈ cs := by
  simp only [matchAfterHash] at h
  split at h
  case isTrue =>
    exact List.IsSuffix.mem (List.mem_of_mem_drop (matchPayload_has_newline h))
      (List.dropWhile_suffix isPySpace)
  case isFalse => exact absurd h (by simp)

theorem directiveMatch_has_newline {key cs cap : List Char}
    (h : directiveMatch key cs = some cap) : '\n' ∈ cs := by
  cases cs with
  | nil => simp [directiveMatch] at h
  | cons c rest =>
    simp only [directiveMatch] at h
    split at h
    case isTrue => exact List.mem_cons_of_mem c (matchAfterHash_has_newline h)
    case isFalse =>
      obtain ⟨p, -, hp⟩ := List.exists_of_findSome?_eq_some h
      exact List.mem_of_mem_drop (matchAfterHash_has_newline hp)

theorem splitLinesAux_mem : ∀ (cs acc l : List Char),
    l ∈ splitLinesAux cs acc → '\n' ∉ acc →
    l.getLast? = some '\n' ∨ '\n' ∉ l := by
  intro cs
  induction cs with
  | nil =>
    intro acc l hl hacc
    simp only [splitLinesAux] at hl
    split at hl
    · simp at hl
    · right
      rw [List.mem_singleton.mp hl]
      simpa using hacc
  | cons c rest ih =>
    intro acc l hl hacc
    simp only [splitLinesAux] at hl
    by_cases hc : c = '\n'
    · rw [if_pos hc] at hl
      rcases List.mem_cons.mp hl with heq | htail
      · left
        rw [heq, List.getLast?_append_of_ne_nil _ (by simp)]
        rfl
      · exact ih [] l htail (by simp)
    · rw [if_neg hc] at hl
      exact ih (c :: acc) l hl (by simp [hacc, Ne.symm hc])

theorem mem_mapIdx_exists {α β : Type} (f : Nat → α → β) (L : List α) (b : β)
    (hb : b ∈ L.mapIdx f) : ∃ i a, a ∈ L ∧ b = f i a := by
  rw [List.mapIdx_eq_enum_map] at hb
  obtain ⟨⟨i, a⟩, hp, hfb⟩ := List.mem_map.mp hb
  have hga : L[i]? = some a := List.mk_mem_enum_iff_getElem?.mp hp
  obtain ⟨hlt, hget⟩ := List.getElem?_eq_some.mp hga
  exact ⟨i, a, List.mem_iff_getElem.mpr ⟨i, hlt, hget⟩, hfb.symm⟩

/-- The piece loop errors exactly at the first odd piece that fails to
parse; with no such piece it returns some list of processed pieces. -/
theorem buildPieces_firstBad (l : CLine) : ∀ (ps : List (List Char)) (even : Bool),
    (∀ p, firstBadPiece ps even = some p →
      buildPieces l ps even = .error (.invalidPattern (String.mk p) l)) ∧
    (firstBadPiece ps even = none → ∃ rs, buildPieces l ps even = .ok rs) := by
  intro ps
  induction ps with
  | nil =>
    intro even
    exact ⟨fun p hp => by rw [firstBadPiece] at hp; exact Option.noConfusion hp,
      fun _ => ⟨[], rfl⟩⟩
  | cons q rest ih =>
    intro even
    cases even with
    | true =>
      constructor
      · intro p hp
        rw [firstBadPiece, if_pos rfl] at hp
        rw [buildPieces, if_pos rfl, (ih false).1 p hp]
        rfl
      · intro hp
        rw [firstBadPiece, if_pos rfl] at hp
        obtain ⟨rs, hrs⟩ := (ih false).2 hp
        refine ⟨reEscape q :: rs, ?_⟩
        rw [buildPieces, if_pos rfl, hrs]
        rfl
    | false =>
      have hff : (false = true) = False := by simp
      constructor
      · intro p hp
        rw [firstBadPiece, if_neg (by simp)] at hp
        rw [buildPieces, if_neg (by simp)]
        cases hq : reParse q with
        | some r =>
          rw [hq] at hp
          rw [(ih true).1 p hp]
          rfl
        | none =>
          rw [hq] at hp
          rw [Option.some.inj hp]
      · intro hp
        rw [firstBadPiece, if_neg (by simp)] at hp
        rw [buildPieces, if_neg (by simp)]
        cases hq : reParse q with
        | some r =>
          rw [hq] at hp
          obtain ⟨rs, hrs⟩ := (ih true).2 hp
          refine ⟨q :: rs, ?_⟩
          rw [hrs]
          rfl
        | none =>
          rw [hq] at hp
          exact Option.noConfusion hp

/-- `CheckCmd.parse` with its let bindings unfolded. -/
theorem checkCmdParse_eq (l : CLine) (ctype : String) :
    CheckCmd.parse l ctype =
      buildPieces l (bracketSplit l.text.data) true >>= fun rs =>
        match reCompileAnchored (('^' :: '\\' :: 's' :: '*' :: []) ++
            (rs.map (fun s => '(' :: '?' :: ':' :: (s ++ [')']))).flatten ++
            ('\\' :: 's' :: '*' :: '\\' :: 'n' :: '?' :: '$' :: [])) with
        | some r => Except.ok (⟨l, ctype, r⟩ : CheckCmd)
        | none => Except.error (CheckerErr.reErr l) := rfl

/-- When no per-directive result raises, the loop of `check_file` visits
every result, collects every failure and clears the success flag exactly
when a failure exists. -/
theorem checkFileLoop_all_ok :
    ∀ (runs : List (Except CheckerErr (Option TFAnchor)))
      (success : Bool) (handled : List TFAnchor),
    runs.all isOkRun = true →
    checkFileLoop runs success handled =
      .ok (success && (failuresOf runs).isEmpty, handled ++ failuresOf runs) := by
  intro runs
  induction runs with
  | nil =>
    intro success handled _
    show Except.ok (success, handled) = _
    simp [failuresOf]
  | cons r rest ih =>
    intro success handled hall
    rw [List.all_cons, Bool.and_eq_true] at hall
    cases r with
    | error e => exact absurd hall.1 (by rw [show isOkRun (.error e) = false from rfl]; simp)
    | ok o =>
      cases o with
      | none =>
        rw [checkFileLoop, ih success handled hall.2]
        rfl
      | some f =>
        rw [checkFileLoop, ih false (handled ++ [f]) hall.2]
        show Except.ok (false && (failuresOf rest).isEmpty, (handled ++ [f]) ++ failuresOf rest) =
          Except.ok (success && (f :: failuresOf rest).isEmpty, handled ++ (f :: failuresOf rest))
        rw [Bool.false_and, List.isEmpty_cons, Bool.and_false, List.append_assoc]
        rfl

/-- C1: the stream matcher of `TestRun.check` proceeds greedily
front-to-back (on a match it consumes both the line and the pattern, a
non-matching blank line is discarded, otherwise the pair is recorded as a
mismatch and both advance), and the outcome is failure at the first
recorded mismatch, else at the first leftover actual line, else at the
first leftover pattern, else success — `streamCheck`, modelled from the
source, coincides with `specCheck`, written from the claim's words. -/
theorem claim1_stream_matcher (lines : List CLine) (checks : List CheckCmd) :
    streamCheck lines checks = specCheck lines checks none := by
  unfold streamCheck
  rw [checkLoop_outcome]
  rfl

/-- C2 counterexample: a captured token with no registered key is NOT left
verbatim — `perform_substitution`'s resolver returns the captured text,
which excludes the leading `%`, so `%foo` becomes `foo`. -/
theorem claim2_counterexample :
    performSubstitution "%foo" [("bar", "B")] = "foo" ∧
      performSubstitution "%foo" [("bar", "B")] ≠ "%foo" := by
  constructor
  · decide
  · decide

/-- C2 (corrected): a captured token `%` + identifier with no registered
key as a prefix of the identifier is replaced by the identifier alone: the
identifier's characters pass through verbatim but the leading `%` is
dropped. -/
theorem claim2_unregistered_token (tok post : List Char) (subs : List (String × String))
    (htne : tok ≠ [])
    (hta : tok.all isTokenChar = true)
    (hpost : ∀ c, post.head? = some c → isTokenChar c = false)
    (hnokey : ∀ kv ∈ subs, kv.1.data.isPrefixOf tok = false) :
    performSubstitution (String.mk ('%' :: (tok ++ post))) subs =
      String.mk (tok ++ subScan (sortByKeyLenDesc subs) post) := by
  rw [performSubstitution_eq]
  apply congrArg
  show subScan (sortByKeyLenDesc subs) ('%' :: (tok ++ post)) = _
  rw [subScan_token_site _ tok post htne hta hpost,
    subber_of_no_key _ tok (fun kv hkv =>
      hnokey kv ((sortByKeyLenDesc_facts subs).1.mem_iff.mp hkv))]

/-- C2 witness: the corrected statement at the concrete template `%foo`
with the single registered key `bar`. -/
theorem claim2_unregistered_token_witness :
    performSubstitution (String.mk ('%' :: ("foo".data ++ []))) [("bar", "B")] =
      String.mk ("foo".data ++ subScan (sortByKeyLenDesc [("bar", "B")]) []) :=
  claim2_unregistered_token "foo".data [] [("bar", "B")]
    (by decide) (by decide) (fun c hc => absurd hc (by simp)) (by decide)

/-- C3 counterexample: inserting a blank line between two adjacent actual
lines CAN change the outcome when a remaining compiled pattern accepts
blank lines (here the pattern of the empty payload): without the blank the
outcome is a mismatch anchored at `y`; with it, the blank-matching check is
consumed by the inserted blank and the outcome becomes a leftover line. -/
theorem claim3_counterexample :
    CLine.isEmptySpace ⟨"", 0, "f"⟩ = true ∧
    streamCheck [⟨" ", 1, "f"⟩, ⟨"y", 2, "f"⟩]
        [okCheck "" 10 "f" "CHECK", okCheck "" 11 "f" "CHECK"] =
      some (.mismatch ⟨"y", 2, "f"⟩ (okCheck "" 11 "f" "CHECK")) ∧
    streamCheck [⟨" ", 1, "f"⟩, ⟨"", 0, "f"⟩, ⟨"y", 2, "f"⟩]
        [okCheck "" 10 "f" "CHECK", okCheck "" 11 "f" "CHECK"] =
      some (.leftoverLine ⟨"y", 2, "f"⟩) := by
  refine ⟨by decide, by decide, by decide⟩

/-- C3 (corrected): inserting blank or whitespace-only lines anywhere in
the actual output leaves the outcome unchanged PROVIDED no check pattern
accepts the inserted blanks (in particular whenever no pattern matches
blank lines). -/
theorem claim3_blank_insertion (blanks xs ys : List CLine) (checks : List CheckCmd)
    (hb : ∀ l ∈ blanks, l.isEmptySpace = true)
    (hno : ∀ c ∈ checks, ∀ l ∈ blanks, checkAccepts c l = false) :
    streamCheck (xs ++ (blanks ++ ys)) checks = streamCheck (xs ++ ys) checks := by
  unfold streamCheck
  exact checkLoop_insert_blanks blanks hb xs ys checks [] hno

/-- C3 witness: inserting the whitespace-only line between the two matched
lines, with patterns that reject blanks, leaves the outcome unchanged. -/
theorem claim3_blank_insertion_witness :
    streamCheck ([⟨"a", 1, "f"⟩] ++ ([⟨" ", 9, "f"⟩] ++ [⟨"b", 2, "f"⟩]))
        [okCheck "a" 3 "f" "CHECK", okCheck "b" 4 "f" "CHECK"] =
      streamCheck ([⟨"a", 1, "f"⟩] ++ [⟨"b", 2, "f"⟩])
        [okCheck "a" 3 "f" "CHECK", okCheck "b" 4 "f" "CHECK"] :=
  claim3_blank_insertion [⟨" ", 9, "f"⟩] [⟨"a", 1, "f"⟩] [⟨"b", 2, "f"⟩]
    [okCheck "a" 3 "f" "CHECK", okCheck "b" 4 "f" "CHECK"]
    (by decide) (by decide)

/-- C4: substitution is longest-key-first — when `k` is the longest
registered key that is a prefix of the captured identifier (keys are
distinct), the replacement of `k` is emitted, only `k`'s length of the
identifier is consumed, and the remaining suffix passes through
verbatim. -/
theorem claim4_longest_key (tok post : List Char) (subs : List (String × String))
    (k v : String)
    (htne : tok ≠ [])
    (hta : tok.all isTokenChar = true)
    (hpost : ∀ c, post.head? = some c → isTokenChar c = false)
    (hnodup : (subs.map Prod.fst).Nodup)
    (hmem : (k, v) ∈ subs)
    (hpref : k.data.isPrefixOf tok = true)
    (hlong : ∀ kv ∈ subs, kv.1.data.isPrefixOf tok = true → kv.1.length ≤ k.length) :
    performSubstitution (String.mk ('%' :: (tok ++ post))) subs =
      String.mk (v.data ++ (tok.drop k.length ++
        subScan (sortByKeyLenDesc subs) post)) := by
  rw [performSubstitution_eq]
  apply congrArg
  show subScan (sortByKeyLenDesc subs) ('%' :: (tok ++ post)) = _
  rw [subScan_token_site _ tok post htne hta hpost,
    subber_longest tok k v (sortByKeyLenDesc subs)
      (sortByKeyLenDesc_facts subs).2
      (((sortByKeyLenDesc_facts subs).1.map Prod.fst).nodup_iff.mpr hnodup)
      ((sortByKeyLenDesc_facts subs).1.mem_iff.mpr hmem)
      hpref
      (fun kv hkv hp => hlong kv ((sortByKeyLenDesc_facts subs).1.mem_iff.mp hkv) hp),
    List.append_assoc]

/-- C4 witness: with keys `s` and `sub`, the template `%subcommand`
resolves against `sub` (the longest prefix key), producing `Y` followed by
the leftover suffix `command` — never `X` followed by `ubcommand`. -/
theorem claim4_longest_key_witness :
    performSubstitution (String.mk ('%' :: ("subcommand".data ++ [])))
        [("s", "X"), ("sub", "Y")] =
      String.mk ("Y".data ++ ("subcommand".data.drop "sub".length ++
        subScan (sortByKeyLenDesc [("s", "X"), ("sub", "Y")]) [])) :=
  claim4_longest_key "subcommand".data [] [("s", "X"), ("sub", "Y")] "sub" "Y"
    (by decide) (by decide) (fun c hc => absurd hc (by simp))
    (by decide) (by decide) (by decide) (by decide)

/-- C5: a payload with no embedded-regex span compiles to the anchored
literal pattern, and that pattern accepts exactly the lines that are the
payload surrounded by whitespace (a trailing line terminator being
whitespace): arbitrary leading and trailing whitespace is permitted, the
match spans the whole line, and it never matches a proper substring. -/
theorem claim5_literal_anchoring (l : CLine) (ctype : String)
    (h : findBracket l.text.data = none) :
    CheckCmd.parse l ctype = .ok ⟨l, ctype, litCompiled l.text.data⟩ ∧
    ∀ L : List Char, pyMatchAnchored (litCompiled l.text.data) L = true ↔
      ∃ w1 w2, w1.all isPySpace = true ∧ w2.all isPySpace = true ∧
        L = w1 ++ l.text.data ++ w2 :=
  ⟨checkCmdParse_lit l ctype h, fun L => pyMatchAnchored_litCompiled_iff l.text.data L⟩

/-- C5 witness: the metacharacter-laden literal payload `a.b*c` compiles to
its literal pattern, and that pattern accepts the payload surrounded by
whitespace and a trailing newline. -/
theorem claim5_literal_anchoring_witness :
    CheckCmd.parse ⟨"a.b*c", 1, "f"⟩ "CHECK" =
      .ok ⟨⟨"a.b*c", 1, "f"⟩, "CHECK", litCompiled "a.b*c".data⟩ ∧
    pyMatchAnchored (litCompiled "a.b*c".data) "  a.b*c \t\n".data = true :=
  ⟨(claim5_literal_anchoring ⟨"a.b*c", 1, "f"⟩ "CHECK" (by decide)).1,
   ((claim5_literal_anchoring ⟨"a.b*c", 1, "f"⟩ "CHECK" (by decide)).2
       "  a.b*c \t\n".data).mpr
     ⟨"  ".data, " \t\n".data, by decide, by decide, by decide⟩⟩

/-- C6 counterexample: the claim has the example backwards — the compiled
pattern for the payload with the span `b|c` followed by `d` REJECTS the
line `b` and ACCEPTS the line `bd` (the wrapped span concatenates with
`d`; it does not alternate across the segment boundary). -/
theorem claim6_counterexample :
    checkAccepts (okCheck "\x7b\x7bb|c\x7d\x7dd" 2 "f" "CHECK") ⟨"b", 1, "f"⟩ = false ∧
    checkAccepts (okCheck "\x7b\x7bb|c\x7d\x7dd" 2 "f" "CHECK") ⟨"bd", 1, "f"⟩ = true := by
  refine ⟨by decide, by decide⟩

/-- C6 (corrected): every segment is wrapped in a non-capturing group, so
the alternation inside the span `b|c` cannot bleed into the adjacent
literal `d`: the compiled pattern accepts `bd` and `cd` (each alternative
concatenated with `d`) and rejects `b` alone. -/
theorem claim6_segment_boundary :
    CheckCmd.parse ⟨"\x7b\x7bb|c\x7d\x7dd", 1, "f"⟩ "CHECK" =
      .ok (okCheck "\x7b\x7bb|c\x7d\x7dd" 1 "f" "CHECK") ∧
    checkAccepts (okCheck "\x7b\x7bb|c\x7d\x7dd" 1 "f" "CHECK") ⟨"bd", 1, "f"⟩ = true ∧
    checkAccepts (okCheck "\x7b\x7bb|c\x7d\x7dd" 1 "f" "CHECK") ⟨"cd", 1, "f"⟩ = true ∧
    checkAccepts (okCheck "\x7b\x7bb|c\x7d\x7dd" 1 "f" "CHECK") ⟨"b", 1, "f"⟩ = false := by
  refine ⟨by decide, by decide, by decide, by decide⟩

/-- C7 counterexample: on an empty fixture the scanner raises an uncaught
index error (not a `NoRunDirectives` failure), and the shebang fallback
template is NOT the remainder of the first line — `text[2:-1]` chops the
line's last character when the line has no trailing newline, so
`#!/bin/sh` yields the template `/bin/s %s`. -/
theorem claim7_counterexample :
    checkerInit [] = .error .indexErr ∧
    computeRunCmds [⟨"#!/bin/sh", 1, "f"⟩] =
      .ok [⟨"/bin/s %s", ⟨"#!/bin/sh", 1, "f"⟩⟩] := by
  refine ⟨by decide, by decide⟩

/-- C7 (corrected): with zero RUN directives found, an empty fixture raises
an index error; a first line beginning `#!` synthesizes one run command
whose template is the first line minus its first two and its LAST character
(the trailing newline when there is one) with ` %s` appended; any other
first line fails with `NoRunDirectives`. -/
theorem claim7_no_run_directives (lines : List CLine)
    (h : group1s runKey lines = []) :
    computeRunCmds lines =
      (match lines.head? with
       | none => Except.error CheckerErr.indexErr
       | some l0 =>
         if "#!".data.isPrefixOf l0.text.data then
           Except.ok [⟨String.mk ((l0.text.data.drop 2).dropLast ++ " %s".data), l0⟩]
         else Except.error CheckerErr.noRunDirectives) := by
  unfold computeRunCmds
  rw [h]
  rfl

/-- C7 witness: the corrected statement at the empty fixture, where the
scanner raises the index error. -/
theorem claim7_no_run_directives_witness :
    computeRunCmds [] =
      (match ([] : List CLine).head? with
       | none => Except.error CheckerErr.indexErr
       | some l0 =>
         if "#!".data.isPrefixOf l0.text.data then
           Except.ok [⟨String.mk ((l0.text.data.drop 2).dropLast ++ " %s".data), l0⟩]
         else Except.error CheckerErr.noRunDirectives) :=
  claim7_no_run_directives [] rfl

/-- C8 counterexample: a payload whose every embedded span parses can still
fail to compile — two spans that each parse alone but declare the same
group name make the joined pattern's compilation raise an uncaught
`re.error`, not an `InvalidPattern` failure. -/
theorem claim8_counterexample :
    (reParse "(?P<a>x)".data).isSome = true ∧
    (reParse "(?P<a>y)".data).isSome = true ∧
    firstBadPiece
      (bracketSplit "\x7b\x7b(?P<a>x)\x7d\x7d\x7b\x7b(?P<a>y)\x7d\x7d".data) true = none ∧
    CheckCmd.parse ⟨"\x7b\x7b(?P<a>x)\x7d\x7d\x7b\x7b(?P<a>y)\x7d\x7d", 1, "f"⟩ "CHECK" =
      .error (.reErr ⟨"\x7b\x7b(?P<a>x)\x7d\x7d\x7b\x7b(?P<a>y)\x7d\x7d", 1, "f"⟩) := by
  refine ⟨by decide, by decide, by decide, by decide⟩

/-- C8 (corrected): the per-piece validation fails with `InvalidPattern`
naming the first embedded span that does not parse (and the originating
line) exactly when such a span exists; when every span parses, the parse
either succeeds or still fails with the uncaught error of compiling the
joined pattern. -/
theorem claim8_piece_validation (l : CLine) (ctype : String) :
    (∀ p, firstBadPiece (bracketSplit l.text.data) true = some p →
      CheckCmd.parse l ctype = .error (.invalidPattern (String.mk p) l)) ∧
    (firstBadPiece (bracketSplit l.text.data) true = none →
      (∃ c, CheckCmd.parse l ctype = .ok c) ∨
        CheckCmd.parse l ctype = .error (.reErr l)) := by
  constructor
  · intro p hp
    rw [checkCmdParse_eq, (buildPieces_firstBad l (bracketSplit l.text.data) true).1 p hp]
    rfl
  · intro hnone
    obtain ⟨rs, hrs⟩ := (buildPieces_firstBad l (bracketSplit l.text.data) true).2 hnone
    have hE : CheckCmd.parse l ctype =
        (match reCompileAnchored (('^' :: '\\' :: 's' :: '*' :: []) ++
            (rs.map (fun s => '(' :: '?' :: ':' :: (s ++ [')']))).flatten ++
            ('\\' :: 's' :: '*' :: '\\' :: 'n' :: '?' :: '$' :: [])) with
          | some r => Except.ok (⟨l, ctype, r⟩ : CheckCmd)
          | none => Except.error (CheckerErr.reErr l)) := by
      rw [checkCmdParse_eq, hrs]
      rfl
    cases hc : reCompileAnchored (('^' :: '\\' :: 's' :: '*' :: []) ++
        (rs.map (fun s => '(' :: '?' :: ':' :: (s ++ [')']))).flatten ++
        ('\\' :: 's' :: '*' :: '\\' :: 'n' :: '?' :: '$' :: [])) with
    | some r =>
      left
      exact ⟨⟨l, ctype, r⟩, by rw [hE, hc]⟩
    | none =>
      right
      rw [hE, hc]

/-- C9: when no directive's run raises, `check_file` visits every RUN
directive (failures never short-circuit the loop), its handled failures
are exactly the directives' match failures in order, and its success flag
is cleared if and only if at least one directive failed. -/
theorem claim9_all_directives_run (runs : List (Except CheckerErr (Option TFAnchor)))
    (h : runs.all isOkRun = true) :
    checkFile runs = .ok ((failuresOf runs).isEmpty, failuresOf runs) := by
  unfold checkFile
  rw [checkFileLoop_all_ok runs true [] h, Bool.true_and, List.nil_append]

/-- C9 witness: three directives — a success followed by two failures —
produce both failures in order and a cleared success flag: the first
failure did not stop the second directive from being matched. -/
theorem claim9_all_directives_run_witness :
    checkFile [.ok none, .ok (some (.leftoverLine ⟨"x", 1, "f"⟩)),
        .ok (some (.leftoverLine ⟨"y", 2, "f"⟩))] =
      .ok ((failuresOf [.ok none, .ok (some (.leftoverLine ⟨"x", 1, "f"⟩)),
          .ok (some (.leftoverLine ⟨"y", 2, "f"⟩))]).isEmpty,
        failuresOf [.ok none, .ok (some (.leftoverLine ⟨"x", 1, "f"⟩)),
          .ok (some (.leftoverLine ⟨"y", 2, "f"⟩))]) :=
  claim9_all_directives_run
    [.ok none, .ok (some (.leftoverLine ⟨"x", 1, "f"⟩)),
      .ok (some (.leftoverLine ⟨"y", 2, "f"⟩))] (by decide)

/-- C10: a fixture line whose text does not end with a newline (such as
the final line of a file with no trailing newline) is recognized as no
RUN, CHECK or CHECKERR directive: every directive regex requires a
newline after the payload, and such a line contains no newline at all. -/
theorem claim10_no_trailing_newline (content name : String) (l : CLine)
    (hl : l ∈ readfile content name)
    (hnl : l.text.data.getLast? ≠ some '\n') :
    directiveMatch runKey l.text.data = none ∧
    directiveMatch checkKey l.text.data = none ∧
    directiveMatch checkerrKey l.text.data = none := by
  obtain ⟨i, ll, hmem, rfl⟩ := mem_mapIdx_exists _ _ l hl
  have hno : '\n' ∉ ll := by
    rcases splitLinesAux_mem content.data [] ll hmem (by simp) with hlast | hnot
    · exact absurd hlast hnl
    · exact hnot
  refine ⟨?_, ?_, ?_⟩
  · cases hd : directiveMatch runKey ll with
    | none => rfl
    | some cap => exact absurd (directiveMatch_has_newline hd) hno
  · cases hd : directiveMatch checkKey ll with
    | none => rfl
    | some cap => exact absurd (directiveMatch_has_newline hd) hno
  · cases hd : directiveMatch checkerrKey ll with
    | none => rfl
    | some cap => exact absurd (directiveMatch_has_newline hd) hno

/-- C10 witness: the file whose single line `# RUN: true` lacks a trailing
newline yields no directive of any kind. -/
theorem claim10_no_trailing_newline_witness :
    directiveMatch runKey (CLine.mk "# RUN: true" 1 "t").text.data = none ∧
    directiveMatch checkKey (CLine.mk "# RUN: true" 1 "t").text.data = none ∧
    directiveMatch checkerrKey (CLine.mk "# RUN: true" 1 "t").text.data = none :=
  claim10_no_trailing_newline "# RUN: true" "t" ⟨"# RUN: true", 1, "t"⟩
    (by decide) (by decide)

end Littlecheck
